import Mathlib

/-!
# Verification of the Asteria lexer and garbage collector

This file is a shallow embedding, in Lean 4, of the two core subsystems of the
Asteria scripting-language runtime that the specification covers:

* the lexer (`src/asteria/src/compiler/token_stream.cpp`), and
* the generational cycle collector (`src/asteria/src/runtime/garbage_collector.cpp`).

Conventions of the embedding:

* Source lines are `List Char`, where each `Char` stands for one input byte
  (values `0 ≤ c < 256`).  Reading one past the end of the line buffer yields
  the NUL terminator, exactly as `Line_Reader::peek` does on the
  NUL-terminated `Cow_String`.
* Machine integers are `Nat`/`Int` with explicit bounds: the `uint64`
  accumulator of the numeric lexer is a `Nat` guarded by the same division
  bound checks as the source, and the final cast to `int64_t` is the explicit
  two's-complement reinterpretation `toInt64`.
* Floating-point accumulation in the real-literal path is represented by the
  exact rational value of the literal; IEEE-754 rounding itself is outside
  the model (see the discussion at `zeroFlagFrac`).
* The C++ code iterates hash maps in unspecified order.  The embedding uses
  lists and processes them in list order; every property proved below is a
  property of the set-level result, which is order-independent.
-/

namespace Asteria

/-! ## Parser errors (`parser_error.hpp`) -/

/-- The error codes of `Parser_Error`, as enumerated by the specification
    (§6.1) and used by `token_stream.cpp`. -/
inductive PCode where
  | no_data_loaded
  | success
  | utf8_sequence_invalid
  | null_character_disallowed
  | block_comment_unclosed
  | string_literal_unclosed
  | escape_sequence_incomplete
  | escape_sequence_unknown
  | escape_sequence_invalid_hex
  | escape_utf_code_point_invalid
  | numeric_literal_incomplete
  | numeric_literal_suffix_disallowed
  | numeric_literal_exponent_overflow
  | integer_literal_exponent_negative
  | integer_literal_overflow
  | real_literal_overflow
  | real_literal_underflow
  | token_character_unrecognized
deriving DecidableEq, Repr

/-- `Parser_Error`: line (1-based), byte offset within the line (0-based),
    length, and code. -/
structure Parser_Error where
  line : Nat
  offset : Nat
  length : Nat
  code : PCode
deriving DecidableEq, Repr

/-! ## Tokens (`token.hpp`) -/

/-- The keywords, named as in `Token::Keyword`. -/
inductive Keyword where
  | keyword_abs | keyword_ceil | keyword_floor | keyword_fma
  | keyword_iceil | keyword_ifloor | keyword_iround | keyword_isinf
  | keyword_isnan | keyword_itrunc | keyword_round | keyword_signb
  | keyword_sqrt | keyword_trunc
  | keyword_and | keyword_assert | keyword_break | keyword_case
  | keyword_catch | keyword_const | keyword_continue | keyword_default
  | keyword_defer | keyword_do | keyword_each | keyword_else
  | keyword_false | keyword_for | keyword_func | keyword_if
  | keyword_infinity | keyword_lengthof | keyword_nan | keyword_not
  | keyword_null | keyword_or | keyword_return | keyword_switch
  | keyword_this | keyword_throw | keyword_true | keyword_try
  | keyword_typeof | keyword_unset | keyword_var | keyword_while
deriving DecidableEq, Repr

/-- The punctuators, named as in `Token::Punctuator`. -/
inductive Punct where
  | punctuator_notl | punctuator_cmp_ne | punctuator_mod | punctuator_mod_eq
  | punctuator_andb | punctuator_andl | punctuator_andl_eq | punctuator_andb_eq
  | punctuator_parenth_op | punctuator_parenth_cl
  | punctuator_mul | punctuator_mul_eq
  | punctuator_add | punctuator_inc | punctuator_add_eq
  | punctuator_comma
  | punctuator_sub | punctuator_dec | punctuator_sub_eq
  | punctuator_dot | punctuator_ellipsis
  | punctuator_div | punctuator_div_eq
  | punctuator_colon | punctuator_semicol
  | punctuator_cmp_lt | punctuator_sla | punctuator_sll | punctuator_sll_eq
  | punctuator_sla_eq | punctuator_cmp_lte | punctuator_spaceship
  | punctuator_assign | punctuator_cmp_eq
  | punctuator_cmp_gt | punctuator_cmp_gte
  | punctuator_sra | punctuator_sra_eq | punctuator_srl | punctuator_srl_eq
  | punctuator_quest | punctuator_quest_eq | punctuator_coales | punctuator_coales_eq
  | punctuator_bracket_op | punctuator_bracket_cl
  | punctuator_xorb | punctuator_xorb_eq
  | punctuator_brace_op | punctuator_brace_cl
  | punctuator_orb | punctuator_orb_eq | punctuator_orl | punctuator_orl_eq
  | punctuator_notb
deriving DecidableEq, Repr

/-- The token payload, one variant per `Token::S_*` struct.  A real literal
    carries the exact rational value of the literal before IEEE-754 rounding;
    rounding (and hence the `FP_INFINITE` / `FP_ZERO` classification of the
    source) is outside the model. -/
inductive TokenData where
  | keyword (kw : Keyword)
  | punctuator (p : Punct)
  | identifier (name : List Char)
  | string_literal (value : List Char)
  | integer_literal (value : Int)
  | real_literal (value : ℚ)
deriving DecidableEq, Repr

/-- A token: line number (1-based), byte offset within the line, length and
    payload.  The source file name carried by `Token` is a constant of the
    whole stream and is omitted. -/
structure Tok where
  line : Nat
  offset : Nat
  length : Nat
  data : TokenData
deriving DecidableEq, Repr

/-- The recognized options of `Parser_Options` that `Token_Stream::load`
    consumes. -/
structure Parser_Options where
  keyword_as_identifier : Bool := false
  integer_as_real : Bool := false
  escapable_single_quote_string : Bool := false
deriving DecidableEq, Repr

/-! ## Character helpers -/

/-- The NUL byte, returned by `Line_Reader::peek` past the end of a line. -/
def chNul : Char := Char.ofNat 0

/-- The digit-separator byte (ASCII 0x60), written as a backquote in source. -/
def chSep : Char := Char.ofNat 0x60

/-- The opening-brace byte (ASCII 0x7b). -/
def chBraceOp : Char := Char.ofNat 0x7b

/-- The closing-brace byte (ASCII 0x7d). -/
def chBraceCl : Char := Char.ofNat 0x7d

/-- `peek`: read the byte at index `i` of the line, NUL past the end. -/
def peekCh (l : List Char) (i : Nat) : Char := l.getD i chNul

/-- `s_digits`: the digit table `"00112233445566778899AaBbCcDdEeFf"`. -/
def sDigits : List Char := "00112233445566778899AaBbCcDdEeFf".toList

/-- `std::char_traits<char>::find(s_digits, len, c)` followed by
    `(dptr - s_digits) / 2`: the value of digit `c` in the first `len`
    table entries, or `none`. -/
def digitFind (len : Nat) (c : Char) : Option Nat :=
  match (sDigits.take len).findIdx? (fun d => d = c) with
  | some i => some (i / 2)
  | none => none

/-- The name-character table `s_name_chars`. -/
def sNameChars : List Char :=
  "ABCDEFGHIJKLMNOPQRSTUVWXYZabcdefghijklmnopqrstuvwxyz_0123456789".toList

/-- Whitespace per the tokenizer: `" \t\v\f\r\n"`. -/
def isSpaceCh (c : Char) : Bool :=
  c = ' ' || c = '\t' || c = Char.ofNat 11 || c = Char.ofNat 12 || c = '\r' || c = '\n'

/-- `scanWhile l i p` is `std::find_if_not(l + i, l + length, p)` as an index:
    the first index `≥ i` whose character fails `p` (or the line length). -/
def scanWhile (l : List Char) (i : Nat) (p : Char → Bool) : Nat :=
  i + ((l.drop i).takeWhile p).length

/-! ## The punctuator table (`do_accept_punctuator`) -/

/-- `s_punct_chars`: the first-byte filter of `do_accept_punctuator`. -/
def sPunctChars : List Char :=
  "!%&()*+,-./:;<=>?[]^".toList ++ [chBraceOp, '|', chBraceCl, '~']

/-- `s_punctuators`: the sorted punctuator table, in source order. -/
def punctTable : List (List Char × Punct) :=
  [ (['!'], .punctuator_notl),
    (['!', '='], .punctuator_cmp_ne),
    (['%'], .punctuator_mod),
    (['%', '='], .punctuator_mod_eq),
    (['&'], .punctuator_andb),
    (['&', '&'], .punctuator_andl),
    (['&', '&', '='], .punctuator_andl_eq),
    (['&', '='], .punctuator_andb_eq),
    (['('], .punctuator_parenth_op),
    ([')'], .punctuator_parenth_cl),
    (['*'], .punctuator_mul),
    (['*', '='], .punctuator_mul_eq),
    (['+'], .punctuator_add),
    (['+', '+'], .punctuator_inc),
    (['+', '='], .punctuator_add_eq),
    ([','], .punctuator_comma),
    (['-'], .punctuator_sub),
    (['-', '-'], .punctuator_dec),
    (['-', '='], .punctuator_sub_eq),
    (['.'], .punctuator_dot),
    (['.', '.', '.'], .punctuator_ellipsis),
    (['/'], .punctuator_div),
    (['/', '='], .punctuator_div_eq),
    ([':'], .punctuator_colon),
    ([';'], .punctuator_semicol),
    (['<'], .punctuator_cmp_lt),
    (['<', '<'], .punctuator_sla),
    (['<', '<', '<'], .punctuator_sll),
    (['<', '<', '<', '='], .punctuator_sll_eq),
    (['<', '<', '='], .punctuator_sla_eq),
    (['<', '='], .punctuator_cmp_lte),
    (['<', '=', '>'], .punctuator_spaceship),
    (['='], .punctuator_assign),
    (['=', '='], .punctuator_cmp_eq),
    (['>'], .punctuator_cmp_gt),
    (['>', '='], .punctuator_cmp_gte),
    (['>', '>'], .punctuator_sra),
    (['>', '>', '='], .punctuator_sra_eq),
    (['>', '>', '>'], .punctuator_srl),
    (['>', '>', '>', '='], .punctuator_srl_eq),
    (['?'], .punctuator_quest),
    (['?', '='], .punctuator_quest_eq),
    (['?', '?'], .punctuator_coales),
    (['?', '?', '='], .punctuator_coales_eq),
    (['['], .punctuator_bracket_op),
    ([']'], .punctuator_bracket_cl),
    (['^'], .punctuator_xorb),
    (['^', '='], .punctuator_xorb_eq),
    ([chBraceOp], .punctuator_brace_op),
    (['|'], .punctuator_orb),
    (['|', '='], .punctuator_orb_eq),
    (['|', '|'], .punctuator_orl),
    (['|', '|', '='], .punctuator_orl_eq),
    ([chBraceCl], .punctuator_brace_cl),
    (['~'], .punctuator_notb) ]

/-- The punctuator-selection loop of `do_accept_punctuator`: restrict the
    sorted table to the entries starting with the first remaining byte
    (`std::equal_range` with `Prefix_Comparator`), then walk that range
    backwards and take the first entry whose whole lexeme is a prefix of the
    remaining input. -/
def findPunct (rem : List Char) : Option (List Char × Punct) :=
  ((punctTable.filter
      (fun e => e.1.getD 0 chNul = rem.getD 0 chNul)).reverse).find?
    (fun e => e.1.isPrefixOf rem)

/-! ## The keyword table (`do_accept_identifier_or_keyword`) -/

/-- `s_keywords`: the sorted keyword table, in source order. -/
def keywordTable : List (List Char × Keyword) :=
  [ ("__abs".toList, .keyword_abs),
    ("__ceil".toList, .keyword_ceil),
    ("__floor".toList, .keyword_floor),
    ("__fma".toList, .keyword_fma),
    ("__iceil".toList, .keyword_iceil),
    ("__ifloor".toList, .keyword_ifloor),
    ("__iround".toList, .keyword_iround),
    ("__isinf".toList, .keyword_isinf),
    ("__isnan".toList, .keyword_isnan),
    ("__itrunc".toList, .keyword_itrunc),
    ("__round".toList, .keyword_round),
    ("__signb".toList, .keyword_signb),
    ("__sqrt".toList, .keyword_sqrt),
    ("__trunc".toList, .keyword_trunc),
    ("and".toList, .keyword_and),
    ("assert".toList, .keyword_assert),
    ("break".toList, .keyword_break),
    ("case".toList, .keyword_case),
    ("catch".toList, .keyword_catch),
    ("const".toList, .keyword_const),
    ("continue".toList, .keyword_continue),
    ("default".toList, .keyword_default),
    ("defer".toList, .keyword_defer),
    ("do".toList, .keyword_do),
    ("each".toList, .keyword_each),
    ("else".toList, .keyword_else),
    ("false".toList, .keyword_false),
    ("for".toList, .keyword_for),
    ("func".toList, .keyword_func),
    ("if".toList, .keyword_if),
    ("infinity".toList, .keyword_infinity),
    ("lengthof".toList, .keyword_lengthof),
    ("nan".toList, .keyword_nan),
    ("not".toList, .keyword_not),
    ("null".toList, .keyword_null),
    ("or".toList, .keyword_or),
    ("return".toList, .keyword_return),
    ("switch".toList, .keyword_switch),
    ("this".toList, .keyword_this),
    ("throw".toList, .keyword_throw),
    ("true".toList, .keyword_true),
    ("try".toList, .keyword_try),
    ("typeof".toList, .keyword_typeof),
    ("unset".toList, .keyword_unset),
    ("var".toList, .keyword_var),
    ("while".toList, .keyword_while) ]

/-! ## UTF-8 (declared in `utils.hpp`; implementation not in this tree) -/

/-- Read `k` continuation bytes (each in `0x80..0xBF`), extending `acc`. -/
def utf8Cont (l : List Char) (i : Nat) (acc : Nat) : Nat → Option Nat
  | 0 => some acc
  | k + 1 =>
    let b := (peekCh l i).toNat
    if i < l.length ∧ 0x80 ≤ b ∧ b ≤ 0xBF then
      utf8Cont l (i + 1) (acc * 64 + (b - 0x80)) k
    else none

/-- Modelled from the spec: `utf8_decode` (only declared in `utils.hpp`; the
    implementation is not part of this tree).  Standard UTF-8 decoding of the
    sequence starting at index `i`: rejects truncated sequences, invalid
    leading or continuation bytes, overlong encodings, surrogates and code
    points above `0x10FFFF`.  Returns the code point and its byte length. -/
def utf8_decode (l : List Char) (i : Nat) : Option (Nat × Nat) :=
  let b0 := (peekCh l i).toNat
  if i ≥ l.length then none
  else if b0 < 0x80 then some (b0, 1)
  else if 0xC2 ≤ b0 ∧ b0 ≤ 0xDF then
    (utf8Cont l (i + 1) (b0 - 0xC0) 2).map (·, 2)
  else if 0xE0 ≤ b0 ∧ b0 ≤ 0xEF then
    match utf8Cont l (i + 1) (b0 - 0xE0) 2 with
    | some cp =>
      if 0x800 ≤ cp ∧ ¬(0xD800 ≤ cp ∧ cp ≤ 0xDFFF) then some (cp, 3) else none
    | none => none
  else if 0xF0 ≤ b0 ∧ b0 ≤ 0xF4 then
    match utf8Cont l (i + 1) (b0 - 0xF0) 3 with
    | some cp => if 0x10000 ≤ cp ∧ cp ≤ 0x10FFFF then some (cp, 4) else none
    | none => none
  else none

/-- Modelled from the spec: `utf8_encode` (only declared in `utils.hpp`).
    Encodes a code point as UTF-8 bytes; fails for code points above
    `0x10FFFF` or in the surrogate range, which is what
    `code_escape_utf_code_point_invalid` reports. -/
def utf8_encode (cp : Nat) : Option (List Char) :=
  if 0xD800 ≤ cp ∧ cp ≤ 0xDFFF then none
  else if cp < 0x80 then some [Char.ofNat cp]
  else if cp < 0x800 then
    some [Char.ofNat (0xC0 + cp / 64), Char.ofNat (0x80 + cp % 64)]
  else if cp < 0x10000 then
    some [Char.ofNat (0xE0 + cp / 4096), Char.ofNat (0x80 + cp / 64 % 64),
          Char.ofNat (0x80 + cp % 64)]
  else if cp ≤ 0x10FFFF then
    some [Char.ofNat (0xF0 + cp / 262144), Char.ofNat (0x80 + cp / 4096 % 64),
          Char.ofNat (0x80 + cp / 64 % 64), Char.ofNat (0x80 + cp % 64)]
  else none

/-! ## String literals (`do_accept_string_literal`) -/

/-- Read `xcnt` hex digits of an `\x`/`\u`/`\U` escape starting at absolute
    index `j` (an index from the start of the token, used for the error
    length `i + 1` exactly as in the source). -/
def readHex (line : List Char) (o : Nat) (lineNo : Nat) (avail : Nat)
    (j : Nat) (acc : Nat) : Nat → Except Parser_Error Nat
  | 0 => .ok acc
  | k + 1 =>
    match digitFind 32 (peekCh line (o + j)) with
    | some d => readHex line o lineNo avail (j + 1) (acc * 16 + d) k
    | none => .error ⟨lineNo, o, j + 1, .escape_sequence_invalid_hex⟩

/-- The escape-translating loop of `do_accept_string_literal` for the
    escapable form.  `tlen` counts consumed bytes including the opening
    quote; `acc` is the decoded value so far.  The fuel argument only
    bounds the recursion; with fuel `avail + 1` it never runs out, because
    every iteration consumes at least one byte. -/
def escStringLoop (line : List Char) (o : Nat) (lineNo : Nat) (head : Char) :
    Nat → Nat → List Char → Except Parser_Error (List Char × Nat)
  | 0, _, _ => .error ⟨lineNo, o, line.length - o, .string_literal_unclosed⟩
  | fuel + 1, tlen, acc =>
    let avail := line.length - o
    let qavail := avail - tlen
    if qavail = 0 then .error ⟨lineNo, o, avail, .string_literal_unclosed⟩
    else
      let next := peekCh line (o + tlen)
      let tlen := tlen + 1
      if next = head then .ok (acc, tlen)
      else if next ≠ '\\' then escStringLoop line o lineNo head fuel tlen (acc ++ [next])
      else if qavail < 2 then .error ⟨lineNo, o, avail, .escape_sequence_incomplete⟩
      else
        let next := peekCh line (o + tlen)
        let tlen := tlen + 1
        if next = '\'' ∨ next = '\"' ∨ next = '\\' ∨ next = '?' then
          escStringLoop line o lineNo head fuel tlen (acc ++ [next])
        else if next = 'a' then escStringLoop line o lineNo head fuel tlen (acc ++ [Char.ofNat 7])
        else if next = 'b' then escStringLoop line o lineNo head fuel tlen (acc ++ [Char.ofNat 8])
        else if next = 'f' then escStringLoop line o lineNo head fuel tlen (acc ++ [Char.ofNat 12])
        else if next = 'n' then escStringLoop line o lineNo head fuel tlen (acc ++ ['\n'])
        else if next = 'r' then escStringLoop line o lineNo head fuel tlen (acc ++ ['\r'])
        else if next = 't' then escStringLoop line o lineNo head fuel tlen (acc ++ ['\t'])
        else if next = 'v' then escStringLoop line o lineNo head fuel tlen (acc ++ [Char.ofNat 11])
        else if next = '0' then escStringLoop line o lineNo head fuel tlen (acc ++ [chNul])
        else if next = 'Z' then escStringLoop line o lineNo head fuel tlen (acc ++ [Char.ofNat 0x1A])
        else if next = 'e' then escStringLoop line o lineNo head fuel tlen (acc ++ [Char.ofNat 0x1B])
        else if next = 'U' ∨ next = 'u' ∨ next = 'x' then
          let xcnt := if next = 'U' then 6 else if next = 'u' then 4 else 2
          if qavail < xcnt + 2 then
            .error ⟨lineNo, o, avail, .escape_sequence_incomplete⟩
          else
            match readHex line o lineNo avail tlen 0 xcnt with
            | .error e => .error e
            | .ok cp =>
              if next = 'x' then
                escStringLoop line o lineNo head fuel (tlen + xcnt) (acc ++ [Char.ofNat (cp % 256)])
              else
                match utf8_encode cp with
                | some bytes => escStringLoop line o lineNo head fuel (tlen + xcnt) (acc ++ bytes)
                | none => .error ⟨lineNo, o, tlen + xcnt, .escape_utf_code_point_invalid⟩
        else .error ⟨lineNo, o, tlen, .escape_sequence_unknown⟩

/-- `do_accept_string_literal`: `none` when the first byte is not `head`;
    otherwise the token (or a parse error) and the new line offset. -/
def do_accept_string_literal (line : List Char) (lineNo o : Nat) (seq : List Tok)
    (head : Char) (escapable : Bool) :
    Option (Except Parser_Error (List Tok × Nat)) :=
  if peekCh line o ≠ head then none
  else some (
    let avail := line.length - o
    if escapable then
      match escStringLoop line o lineNo head (avail + 1) 1 [] with
      | .error e => .error e
      | .ok (value, tlen) =>
        .ok (seq ++ [⟨lineNo, o, tlen, .string_literal value⟩], o + tlen)
    else
      -- Raw form: bytes up to the next `head`, no escape processing.
      match ((line.drop (o + 1)).take (avail - 1)).findIdx? (fun c => c = head) with
      | none => .error ⟨lineNo, o, avail, .string_literal_unclosed⟩
      | some k =>
        let value := ((line.drop (o + 1)).take (avail - 1)).take k
        let tlen := k + 2
        .ok (seq ++ [⟨lineNo, o, tlen, .string_literal value⟩], o + tlen))

/-! ## Identifiers and keywords (`do_accept_identifier_or_keyword`) -/

/-- `do_accept_identifier_or_keyword`. -/
def do_accept_identifier_or_keyword (keyword_as_identifier : Bool)
    (line : List Char) (lineNo o : Nat) (seq : List Tok) :
    Option (List Tok × Nat) :=
  if (sNameChars.take 53).contains (peekCh line o) then
    let e := scanWhile line o (fun ch => (sNameChars.take 63).contains ch)
    let tlen := e - o
    let word := (line.drop o).take tlen
    if keyword_as_identifier then
      some (seq ++ [⟨lineNo, o, tlen, .identifier word⟩], e)
    else
      match keywordTable.find? (fun kv => kv.1 = word) with
      | some kv => some (seq ++ [⟨lineNo, o, tlen, .keyword kv.2⟩], e)
      | none => some (seq ++ [⟨lineNo, o, tlen, .identifier word⟩], e)
  else none

/-! ## Sign mergeability (`do_check_mergeability`) -/

/-- `do_check_mergeability`: whether the previously emitted token is a
    contiguous `+`/`-` punctuator eligible for merging into a numeric
    literal that starts at line offset `o`.  Returns that token. -/
def do_check_mergeability (seq : List Tok) (lineNo o : Nat) : Option Tok :=
  match seq.getLast? with
  | none => none
  | some qstok =>
    if qstok.line ≠ lineNo then none
    else if qstok.offset + qstok.length ≠ o then none
    else
      match qstok.data with
      | .punctuator p =>
        if ¬(p = .punctuator_add ∨ p = .punctuator_sub) then none
        else if seq.length < 2 then some qstok
        else
          match (seq.dropLast).getLast? with
          | none => none
          | some pt =>
            match pt.data with
            | .keyword k =>
              if k = .keyword_null ∨ k = .keyword_true ∨ k = .keyword_false ∨
                 k = .keyword_nan ∨ k = .keyword_infinity ∨ k = .keyword_this
              then none else some qstok
            | .punctuator q =>
              if q = .punctuator_inc ∨ q = .punctuator_dec ∨
                 q = .punctuator_parenth_cl ∨ q = .punctuator_bracket_cl ∨
                 q = .punctuator_brace_cl
              then none else some qstok
            | _ => none
      | _ => none

/-! ## Numeric literals (`do_accept_numeric_literal`) -/

/-- `[A-Za-z_]`, the byte class of `std::strchr("ABC...xyz_", ch)` used for
    the reserved-suffix check. -/
def isAlphaUnd (c : Char) : Bool := c.isAlpha || c = '_'

/-- Reinterpret a `uint64` bit pattern as `int64_t` (two's complement). -/
def toInt64 (v : Nat) : Int :=
  if v < 2 ^ 63 then (v : Int) else (v : Int) - 2 ^ 64

/-- The exponent-accumulation loop: decimal digits (separators skipped) with
    the `(0x7FFFFFFF - dvalue) / 10` bound check;
    `.error ()` stands for `code_numeric_literal_exponent_overflow`. -/
def expDigitsFold (cs : List Char) : Except Unit Nat :=
  cs.foldlM (fun exp ch =>
    match digitFind 20 ch with
    | none => Except.ok exp
    | some d =>
      if exp > (0x7FFFFFFF - d) / 10 then Except.error ()
      else Except.ok (exp * 10 + d)) 0

/-- The integer-significand loop: digits of base `rbase` (separators skipped)
    with the `(0x8000000000000000 - dvalue) / rbase` bound check, which
    still admits `0x1p63` itself; `.error ()` stands for
    `code_integer_literal_overflow`. -/
def intSigFold (rbase : Nat) (cs : List Char) : Except Unit Nat :=
  cs.foldlM (fun value ch =>
    match digitFind (rbase * 2) ch with
    | none => Except.ok value
    | some d =>
      if value > (0x8000000000000000 - d) / rbase then Except.error ()
      else Except.ok (value * rbase + d)) 0

/-- The exponent loop of the integer path: multiply by `pbase` `exp` times
    with the `0x8000000000000000 / pbase` bound check. -/
def intPowLoop (pbase : Nat) : Nat → Nat → Except Unit Nat
  | value, 0 => .ok value
  | value, k + 1 =>
    if value > 0x8000000000000000 / pbase then .error ()
    else intPowLoop pbase (value * pbase) k

/-- The two evaluation stages of the integer path combined: the significand
    fold, then (when the significand is non-zero and an exponent base is
    present) the exponent loop.  `.error ()` stands for
    `code_integer_literal_overflow` in both stages. -/
def intLiteralEval (rbase pbase exp : Nat) (cs : List Char) : Except Unit Nat :=
  match intSigFold rbase cs with
  | .error e => .error e
  | .ok v0 => if v0 ≠ 0 ∧ 2 ≤ pbase then intPowLoop pbase v0 exp else .ok v0

/-- The mathematical value of a digit string in base `rbase` (separators and
    other non-digits contribute nothing, as in the source loops). -/
def digitsVal (rbase : Nat) (cs : List Char) : Nat :=
  cs.foldl (fun a ch =>
    match digitFind (rbase * 2) ch with
    | none => a
    | some d => a * rbase + d) 0

/-- The mathematical magnitude of an integer literal: the significand raised
    by `pbase ^ exp` exactly when the source's exponent loop would run on a
    non-zero significand (for a zero significand the product is zero either
    way). -/
def intMagnitude (rbase pbase exp : Nat) (cs : List Char) : Nat :=
  digitsVal rbase cs * (if 2 ≤ pbase then pbase ^ exp else 1)

/-- The integral-part accumulation of the real path, as an exact rational. -/
def realIntFold (rbase : Nat) (cs : List Char) : ℚ :=
  cs.foldl (fun a ch =>
    match digitFind (rbase * 2) ch with
    | none => a
    | some d => a * (rbase : ℚ) + (d : ℚ)) 0

/-- The fractional-part accumulation of the real path (the source iterates
    the fractional digits backwards, computing `(frac + d) / rbase`), as an
    exact rational. -/
def realFracFold (rbase : Nat) (cs : List Char) : ℚ :=
  cs.foldr (fun ch a =>
    match digitFind (rbase * 2) ch with
    | none => a
    | some d => (a + (d : ℚ)) / (rbase : ℚ)) 0

/-- The `zero` flag of the real path, translated literally from the source:
    it is declared as `bool zero = true;` and each digit performs
    `zero |= dvalue;`, first over the integral digits, then over the
    fractional digits.  (See `real_literal_underflow_unreachable` below:
    because the flag starts at `true` and is only ever OR-ed, it is
    constantly `true`, so the guard `(fpcls == FP_ZERO) && !zero` can never
    fire.) -/
def zeroFlag (rbase : Nat) (intCs fracCs : List Char) : Bool :=
  (intCs ++ fracCs).foldl (fun z ch =>
    match digitFind (rbase * 2) ch with
    | none => z
    | some d => z || decide (d ≠ 0)) true

/-- `do_accept_numeric_literal`: `none` when the first byte is not a decimal
    digit; otherwise the token (or a parse error) and the new line offset.
    The real path carries the exact rational value; the `FP_INFINITE` /
    `FP_ZERO` classification after IEEE-754 rounding is outside the model
    (the `FP_ZERO` branch is dead anyway, see `zeroFlag`). -/
def do_accept_numeric_literal (integer_as_real : Bool) (line : List Char)
    (lineNo o : Nat) (seq : List Tok) :
    Option (Except Parser_Error (List Tok × Nat)) :=
  if (digitFind 20 (peekCh line o)).isNone then none
  else some (
    let qstok := do_check_mergeability seq lineNo o
    let rneg : Bool := match qstok with
      | some t => decide (t.data = .punctuator .punctuator_sub)
      | none => false
    let pre : Nat × Nat :=
      if peekCh line o = '0' then
        if peekCh line (o + 1) = 'B' ∨ peekCh line (o + 1) = 'b' then (o + 2, 2)
        else if peekCh line (o + 1) = 'X' ∨ peekCh line (o + 1) = 'x' then (o + 2, 16)
        else (o, 10)
      else (o, 10)
    let bintg := pre.1
    let rbase := pre.2
    let isRDigit : Char → Bool := fun ch => ch = chSep || (digitFind (rbase * 2) ch).isSome
    let eintg := scanWhile line bintg isRDigit
    if eintg = bintg then .error ⟨lineNo, o, eintg - o, .numeric_literal_incomplete⟩
    else
      let hasFrac := peekCh line eintg = '.'
      let bfrac := if hasFrac then eintg + 1 else eintg
      let efrac := if hasFrac then scanWhile line bfrac isRDigit else eintg
      if hasFrac ∧ efrac = bfrac then
        .error ⟨lineNo, o, efrac - o, .numeric_literal_incomplete⟩
      else
        let expCh := peekCh line efrac
        let pbase : Nat :=
          if expCh = 'E' ∨ expCh = 'e' then 10
          else if expCh = 'P' ∨ expCh = 'p' then 2 else 0
        let hasExp := pbase ≠ 0
        let signCh := peekCh line (efrac + 1)
        let pneg := hasExp ∧ signCh = '-'
        let bexp :=
          if hasExp then (if signCh = '+' ∨ signCh = '-' then efrac + 2 else efrac + 1)
          else efrac
        let eexp :=
          if hasExp then scanWhile line bexp (fun ch => ch = chSep || (digitFind 20 ch).isSome)
          else efrac
        if hasExp ∧ eexp = bexp then
          .error ⟨lineNo, o, eexp - o, .numeric_literal_incomplete⟩
        else if eexp ≠ line.length ∧ isAlphaUnd (peekCh line eexp) then
          .error ⟨lineNo, o, scanWhile line eexp isAlphaUnd - o, .numeric_literal_suffix_disallowed⟩
        else
          match expDigitsFold ((line.drop bexp).take (eexp - bexp)) with
          | .error _ => .error ⟨lineNo, o, eexp - o, .numeric_literal_exponent_overflow⟩
          | .ok expMag =>
            let exp : Int := if pneg then -(expMag : Int) else (expMag : Int)
            if ¬integer_as_real ∧ bfrac = efrac then
              -- Integer path.
              if exp < 0 then
                .error ⟨lineNo, o, eexp - o, .integer_literal_exponent_negative⟩
              else
                match intLiteralEval rbase pbase exp.toNat
                        ((line.drop bintg).take (eintg - bintg)) with
                | .error _ => .error ⟨lineNo, o, eexp - o, .integer_literal_overflow⟩
                | .ok value =>
                    if value = 0x8000000000000000 ∧ rneg = false then
                      .error ⟨lineNo, o, eexp - o, .integer_literal_overflow⟩
                    else
                      let uval := if rneg then (2 ^ 64 - value) % 2 ^ 64 else value
                      let popped : List Tok × Nat := match qstok with
                        | some t => (seq.dropLast, t.offset)
                        | none => (seq, o)
                      .ok (popped.1 ++
                            [⟨lineNo, popped.2, eexp - popped.2, .integer_literal (toInt64 uval)⟩],
                           eexp)
            else
              -- Real path (exact value; rounding not modeled).
              let intg := realIntFold rbase ((line.drop bintg).take (eintg - bintg))
              let frac := realFracFold rbase ((line.drop bfrac).take (efrac - bfrac))
              let scale : ℚ := if pbase = 2 then (2 : ℚ) ^ exp else (pbase : ℚ) ^ exp
              let value0 := (intg + frac) * scale
              let value := if rneg then -value0 else value0
              let popped : List Tok × Nat := match qstok with
                | some t => (seq.dropLast, t.offset)
                | none => (seq, o)
              .ok (popped.1 ++
                    [⟨lineNo, popped.2, eexp - popped.2, .real_literal value⟩],
                   eexp))

/-! ## The per-line tokenizer loop (`Token_Stream::load`, inner loop) -/

/-- Failure of a load: either a `Parser_Error` (caught and stored by
    `Token_Stream::load`), or `ASTERIA_TERMINATE` (which aborts the process;
    also used for fuel exhaustion, which cannot occur with fuel
    `line.length + 1` because every loop iteration consumes a byte). -/
inductive LexFail where
  | parse (e : Parser_Error)
  | terminate
deriving DecidableEq, Repr

/-- `do_accept_punctuator`: `none` when the first byte is not a punctuator
    byte; `terminate` is the `ASTERIA_TERMINATE` branch (unreachable, since
    every punctuator byte has a single-byte table entry). -/
def do_accept_punctuator (line : List Char) (lineNo o : Nat) (seq : List Tok) :
    Option (Except LexFail (List Tok × Nat)) :=
  if ¬ sPunctChars.contains (peekCh line o) then none
  else some (
    match findPunct (line.drop o) with
    | some e => .ok (seq ++ [⟨lineNo, o, e.1.length, .punctuator e.2⟩], o + e.1.length)
    | none => .error .terminate)

/-- `std::search` for the two-byte block-comment terminator: index of the
    first adjacent `'*'`,`'/'` pair. -/
def findStarSlash : List Char → Option Nat
  | [] => none
  | [_] => none
  | a :: b :: rest =>
    if a = '*' ∧ b = '/' then some 0
    else (findStarSlash (b :: rest)).map (· + 1)

/-- The position of an open block comment (`Tack`). -/
structure Tack where
  line : Nat
  offset : Nat
  length : Nat
deriving DecidableEq, Repr

/-- The per-line tokenizing loop of `Token_Stream::load`: skip block-comment
    bodies and whitespace, recognize `//` and `/*`, then try the acceptors
    in source order (punctuator, double-quoted string, single-quoted string,
    identifier-or-keyword, numeric literal). -/
def tokenizeLineLoop (opts : Parser_Options) (line : List Char) (lineNo : Nat) :
    Nat → Nat → List Tok → Option Tack → Except LexFail (List Tok × Option Tack)
  | 0, _, _, _ => .error .terminate
  | fuel + 1, o, seq, bcomm =>
    if line.length - o = 0 then .ok (seq, bcomm)
    else match bcomm with
      | some _ =>
        match findStarSlash (line.drop o) with
        | none => .ok (seq, bcomm)
        | some k => tokenizeLineLoop opts line lineNo fuel (o + k + 2) seq none
      | none =>
        let head := peekCh line o
        if isSpaceCh head then tokenizeLineLoop opts line lineNo fuel (o + 1) seq none
        else if head = '/' ∧ peekCh line (o + 1) = '/' then .ok (seq, none)
        else if head = '/' ∧ peekCh line (o + 1) = '*' then
          tokenizeLineLoop opts line lineNo fuel (o + 2) seq (some ⟨lineNo, o, 2⟩)
        else
          match do_accept_punctuator line lineNo o seq with
          | some (.error f) => .error f
          | some (.ok (seq', o')) => tokenizeLineLoop opts line lineNo fuel o' seq' none
          | none =>
          match do_accept_string_literal line lineNo o seq '\"' true with
          | some (.error e) => .error (.parse e)
          | some (.ok (seq', o')) => tokenizeLineLoop opts line lineNo fuel o' seq' none
          | none =>
          match do_accept_string_literal line lineNo o seq '\'' opts.escapable_single_quote_string with
          | some (.error e) => .error (.parse e)
          | some (.ok (seq', o')) => tokenizeLineLoop opts line lineNo fuel o' seq' none
          | none =>
          match do_accept_identifier_or_keyword opts.keyword_as_identifier line lineNo o seq with
          | some (seq', o') => tokenizeLineLoop opts line lineNo fuel o' seq' none
          | none =>
          match do_accept_numeric_literal opts.integer_as_real line lineNo o seq with
          | some (.error e) => .error (.parse e)
          | some (.ok (seq', o')) => tokenizeLineLoop opts line lineNo fuel o' seq' none
          | none => .error (.parse ⟨lineNo, o, 1, .token_character_unrecognized⟩)

/-- The UTF-8/NUL validation pass over one line.  The length recorded for an
    invalid sequence is modelled as 1 byte (the decoder's partial progress is
    not observable from the declaration of `utf8_decode`). -/
def validateGo (line : List Char) (lineNo : Nat) : Nat → Nat → Option Parser_Error
  | 0, _ => none
  | fuel + 1, pos =>
    if line.length - pos = 0 then none
    else match utf8_decode line pos with
      | none => some ⟨lineNo, pos, 1, .utf8_sequence_invalid⟩
      | some (cp, len) =>
        if cp = 0 then some ⟨lineNo, pos, len, .null_character_disallowed⟩
        else validateGo line lineNo fuel (pos + len)

/-- Validate that a line is well-formed UTF-8 without NUL bytes. -/
def validateLine (line : List Char) (lineNo : Nat) : Option Parser_Error :=
  validateGo line lineNo (line.length + 1) 0

/-- The line loop of `Token_Stream::load` over the lines delivered by
    `Line_Reader` (1-based line numbers).  Line 1 is discarded wholesale,
    before UTF-8 validation, when it begins with the two bytes of a shebang.
    At end of input an open block comment is reported at its opening
    position. -/
def loadLinesGo (opts : Parser_Options) :
    List (List Char) → Nat → List Tok → Option Tack → Except LexFail (List Tok)
  | [], _, seq, bcomm =>
    match bcomm with
    | some tk => .error (.parse ⟨tk.line, tk.offset, tk.length, .block_comment_unclosed⟩)
    | none => .ok seq
  | l :: rest, lineNo, seq, bcomm =>
    if lineNo = 1 ∧ 2 ≤ l.length ∧ l.take 2 = ['#', '!'] then
      loadLinesGo opts rest (lineNo + 1) seq bcomm
    else
      match validateLine l lineNo with
      | some e => .error (.parse e)
      | none =>
        match tokenizeLineLoop opts l lineNo (l.length + 1) 0 seq bcomm with
        | .error f => .error f
        | .ok (seq', bcomm') => loadLinesGo opts rest (lineNo + 1) seq' bcomm'

/-- `Token_Stream::load` on a pre-split list of lines (what `Line_Reader`
    produces from the byte stream): the token sequence in source order, or
    the first parse error. -/
def Token_Stream_load (opts : Parser_Options) (lines : List (List Char)) :
    Except LexFail (List Tok) :=
  loadLinesGo opts lines 1 [] none

/-! ## The token-stream state machine (`Token_Stream`) -/

/-- The variant `m_stor` of `Token_Stream`: `empty` (`nullptr`), `error`
    (a stored `Parser_Error`) or `success` (the token sequence, stored
    reversed so that the next token is at the back). -/
inductive TS_Stor where
  | state_empty
  | state_error (e : Parser_Error)
  | state_success (toks : List Tok)
deriving DecidableEq, Repr

/-- The state transition of `Token_Stream::load`: on success the sequence is
    reversed and stored; on a parse error the error is stored.  (An
    `ASTERIA_TERMINATE` aborts the process and has no resulting state; it is
    mapped to `state_empty`, matching the initial `m_stor = nullptr` done
    before parsing.  It is unreachable on real input.) -/
def TS_load (opts : Parser_Options) (lines : List (List Char)) : TS_Stor :=
  match Token_Stream_load opts lines with
  | .ok seq => .state_success seq.reverse
  | .error (.parse e) => .state_error e
  | .error .terminate => .state_empty

/-- `Token_Stream::empty`: `true` in the empty AND in the error state, and
    emptiness of the stored sequence on success. -/
def TS_empty : TS_Stor → Bool
  | .state_empty => true
  | .state_error _ => true
  | .state_success toks => toks.isEmpty

/-- `Token_Stream::peek_opt`: throws (an `Except.error` here) in the empty
    and error states; otherwise the last stored token, if any. -/
def TS_peek_opt : TS_Stor → Except String (Option Tok)
  | .state_empty => .error "no data have been loaded"
  | .state_error _ => .error "the previous load operation has failed"
  | .state_success toks => .ok toks.getLast?

/-- `Token_Stream::shift`: throws in the empty and error states and on an
    exhausted stream; otherwise pops the last stored token. -/
def TS_shift : TS_Stor → Except String TS_Stor
  | .state_empty => .error "no data have been loaded"
  | .state_error _ => .error "the previous load operation has failed"
  | .state_success toks =>
    if toks.isEmpty then .error "there are no more tokens"
    else .ok (.state_success toks.dropLast)

/-- `Token_Stream::get_parser_error`. -/
def TS_get_parser_error : TS_Stor → Parser_Error
  | .state_empty => ⟨0, 0, 0, .no_data_loaded⟩
  | .state_error e => e
  | .state_success _ => ⟨0, 0, 0, .success⟩

/-! ## The garbage collector (`garbage_collector.cpp` / `garbage_collector.hpp`)

Variables are identified by `Nat` ids.  A `Variable_HashMap` keyed by the
variable itself is a duplicate-free `List Nat`; the C++ drains such maps in
unspecified order, which the embedding fixes to list order (all properties
proved below are order-independent set-level facts).  The reference-count
bookkeeping of `rcptr` is represented by its observable components:

* `roots v` — the number of references to `v` held outside the collector
  (stack slots, caller handles, globals);
* membership in the tracked sets and in the pool — one reference each;
* occurrences of `v` inside other variables' values — one reference per
  slot, enumerated by `Value::get_variables`.

`use_count()` as read at the partition step of `do_collect_generation` is
the sum of those plus one for the draining `rcptr<Variable> var` itself, so
the comparison `gc_ref == use_count - 1` of the source is
`gcRefOf … = useCountM1 …` below, with the local reference cancelled on both
sides. -/

/-- The collector state.  Generation arrays are indexed as in the source,
    where index `0` is the oldest generation and index `gMax = 2` the
    youngest (`m_counts`, `m_thres`, `m_tracked`).  `vals v` is the list of
    variable ids referenced by the value held in `v` (empty when `v` is
    uninitialized); `init v` is the initialized flag; `vars` lists every
    allocated cell; `nextId` abstracts fresh-cell allocation. -/
structure GCState where
  vals : Nat → List Nat
  init : Nat → Bool
  roots : Nat → Nat
  tracked : Fin 3 → List Nat
  counts : Fin 3 → Nat
  thres : Fin 3 → Nat
  pool : List Nat
  recur : Nat
  vars : List Nat
  nextId : Nat

/-- `m_thres = { 10, 70, 500 }` — stored oldest-first, like the other
    generation arrays. -/
def defaultThres : Fin 3 → Nat := fun i => [10, 70, 500].getD i.val 0

/-- A freshly constructed `Garbage_Collector`. -/
def gcFresh : GCState :=
  { vals := fun _ => []
    init := fun _ => false
    roots := fun _ => 0
    tracked := fun _ => []
    counts := fun _ => 0
    thres := defaultThres
    pool := []
    recur := 0
    vars := []
    nextId := 1 }

/-- The index conversion `gMax - gen` used throughout the source:
    semantic generation `0` (`gc_generation_newest`) lives at storage
    index 2, the oldest at storage index 0. -/
def gIdx (gen : Fin 3) : Fin 3 := ⟨2 - gen.val, by omega⟩

/-- The storage index `gMax - gen - 1` of the next-older generation
    (meaningful for `gen < 2`). -/
def nextIdx (gen : Fin 3) : Fin 3 := ⟨1 - gen.val, by omega⟩

/-- `get_threshold(gen)` is `m_thres.at(gMax - gen)`. -/
def get_threshold (s : GCState) (gen : Fin 3) : Nat := s.thres (gIdx gen)

/-- `count_tracked_variables(gen)` is `m_tracked.at(gMax - gen).size()`. -/
def count_tracked_variables (s : GCState) (gen : Fin 3) : Nat :=
  (s.tracked (gIdx gen)).length

/-- One breadth step of reference discovery: the current set plus every
    variable referenced from it, deduplicated. -/
def stepCl (vals : Nat → List Nat) (cur : List Nat) : List Nat :=
  (cur ++ cur.flatMap vals).dedup

/-- `n` discovery steps from `start`.  With `n` at least the number of
    allocated cells this is the set of variables reachable from `start`,
    which is what the drain-until-empty loops over `m_temp_1`/`m_temp_2`
    compute. -/
def iterCl (vals : Nat → List Nat) (start : List Nat) : Nat → List Nat
  | 0 => start.dedup
  | n + 1 => stepCl vals (iterCl vals start n)

/-- The set collected into `m_staged`/`m_temp_1` by steps 1–2 of
    `do_collect_generation`: everything reachable from the tracked set of
    the collected generation. -/
def closureOf (s : GCState) (gen : Fin 3) : List Nat :=
  iterCl s.vals (s.tracked (gIdx gen)) s.vars.length

/-- `gc_ref` of `v` after steps 1–3: one for the reference from the tracked
    set or `m_staged` itself, plus one per reference to `v` from a value
    reachable from the tracked set (each slot of `m_staged` is keyed by its
    owner's address, so each occurrence counts once). -/
def gcRefOf (s : GCState) (gen : Fin 3) (v : Nat) : Nat :=
  1 + ((closureOf s gen).flatMap s.vals).count v

/-- `use_count() - 1` as observed at the partition step for a variable not
    yet marked reachable: tracked-set references, the pool reference,
    references from every live value, and external roots.  (The `- 1`
    cancels the local `rcptr` of the drain loop.) -/
def useCountM1 (s : GCState) (v : Nat) : Nat :=
  (if v ∈ s.tracked 0 then 1 else 0) +
  (if v ∈ s.tracked 1 then 1 else 0) +
  (if v ∈ s.tracked 2 then 1 else 0) +
  (if v ∈ s.pool then 1 else 0) +
  (s.vars.flatMap s.vals).count v +
  s.roots v

/-- The externally-referenced members of the closure: those for which the
    partition test `gc_ref == use_count - 1` fails, i.e. some reference to
    them does not come from inside the collected region. -/
def eSet (s : GCState) (gen : Fin 3) : List Nat :=
  (closureOf s gen).filter (fun v => ¬ gcRefOf s gen v = useCountM1 s v)

/-- The reachable set of step 4: everything reachable from an
    externally-referenced member (the `m_temp_2` propagation). -/
def reachSet (s : GCState) (gen : Fin 3) : List Nat :=
  iterCl s.vals (eSet s gen) s.vars.length

/-- The final contents of `m_unreachable`: closure members never marked
    reachable. -/
def unreachSet (s : GCState) (gen : Fin 3) : List Nat :=
  (closureOf s gen).filter (fun v => v ∉ reachSet s gen)

/-- One iteration of the reclamation drain (step 5): `uninitialize()` the
    variable, erase it from the collected generation's tracked set, count
    it, and pool it when it was actually tracked there. -/
def drainStep (i : Fin 3) : GCState × Nat → Nat → GCState × Nat := fun acc v =>
  let s := acc.1
  let erased := v ∈ s.tracked i
  ({ s with
      vals := fun w => if w = v then [] else s.vals w
      init := fun w => if w = v then false else s.init w
      tracked := fun j => if j = i then (s.tracked i).erase v else s.tracked j
      pool := if erased ∧ v ∉ s.pool then s.pool ++ [v] else s.pool },
   acc.2 + 1)

/-- One iteration of the promotion loop (step 6): tentatively insert into
    the next generation, erase from the collected generation; when the
    variable was not actually tracked there, undo by erasing from the next
    generation (this also erases a pre-existing entry), otherwise bump the
    next generation's allocation counter. -/
def promoteStep (i nx : Fin 3) : GCState → Nat → GCState := fun s v =>
  let inserted := if v ∈ s.tracked nx then s.tracked nx else s.tracked nx ++ [v]
  if v ∈ s.tracked i then
    { s with
        tracked := fun j => if j = i then (s.tracked i).erase v
                            else if j = nx then inserted else s.tracked j
        counts := fun j => if j = nx then s.counts nx + 1 else s.counts j }
  else
    { s with tracked := fun j => if j = nx then inserted.erase v else s.tracked j }

/-- `do_collect_generation(gen)`: the re-entry guard, then reclamation of
    the unreachable set, promotion of the reachable set (when a next-older
    generation exists), and the counter reset.  Returns the number of
    variables collected and the new state. -/
def do_collect_generation (s : GCState) (gen : Fin 3) : Nat × GCState :=
  if s.recur > 0 then (0, s)
  else
    let i := gIdx gen
    let drained := (unreachSet s gen).foldl (drainStep i) (s, 0)
    let s₁ := drained.1
    let nv := drained.2
    let s₂ :=
      if gen.val < 2 then (reachSet s gen).foldl (promoteStep i (nextIdx gen)) s₁
      else s₁
    (nv, { s₂ with counts := fun j => if j = i then 0 else s₂.counts j })

/-- The result of `create_variable`: the id of the returned cell, the new
    state, and (for the statements below) the list of generations whose
    collection was triggered, in the order the loop ran them. -/
structure CreateResult where
  var : Nat
  st : GCState
  trig : List (Fin 3)

/-- One iteration of the automatic-collection loop of `create_variable`:
    collect this generation when its allocation counter has reached its
    threshold, recording the trigger. -/
def createPass (acc : GCState × List (Fin 3)) (gen : Fin 3) : GCState × List (Fin 3) :=
  if acc.1.counts (gIdx gen) ≥ acc.1.thres (gIdx gen) then
    ((do_collect_generation acc.1 gen).2, acc.2 ++ [gen])
  else acc

/-- The tracking step at the end of `create_variable`: insert the cell into
    the hinted generation's tracked set and bump that generation's
    allocation counter. -/
def gcTrack (s : GCState) (gen_hint : Fin 3) (v : Nat) : GCState :=
  { s with
      tracked := fun j => if j = gIdx gen_hint then
                            (if v ∈ s.tracked (gIdx gen_hint) then s.tracked (gIdx gen_hint)
                             else s.tracked (gIdx gen_hint) ++ [v])
                          else s.tracked j
      counts := fun j => if j = gIdx gen_hint then s.counts (gIdx gen_hint) + 1
                         else s.counts j }

/-- `create_variable(gen_hint)`: for each generation youngest to oldest,
    collect it when its allocation counter has reached its threshold; then
    pop a pooled cell or allocate a fresh one, track it in the hinted
    generation and bump that generation's counter. -/
def create_variable (s : GCState) (gen_hint : Fin 3) : CreateResult :=
  let collected := (List.finRange 3).foldl createPass (s, [])
  let s₀ := collected.1
  match s₀.pool with
  | v :: rest => ⟨v, gcTrack { s₀ with pool := rest } gen_hint v, collected.2⟩
  | [] =>
    ⟨s₀.nextId,
     gcTrack { s₀ with nextId := s₀.nextId + 1, vars := s₀.vars ++ [s₀.nextId] }
       gen_hint s₀.nextId,
     collected.2⟩

/-- Well-formedness of the collector's tracking bookkeeping: the tracked
    sets are duplicate-free and pairwise disjoint (every variable is
    tracked by at most one generation), pooled cells are duplicate-free and
    untracked, and every tracked or pooled cell id is below the fresh-id
    counter. -/
def TrackedWF (s : GCState) : Prop :=
  (∀ j : Fin 3, (s.tracked j).Nodup) ∧
  (∀ j k : Fin 3, j ≠ k → ∀ v ∈ s.tracked j, v ∉ s.tracked k) ∧
  s.pool.Nodup ∧
  (∀ v ∈ s.pool, ∀ j : Fin 3, v ∉ s.tracked j) ∧
  (∀ j : Fin 3, ∀ v ∈ s.tracked j, v < s.nextId) ∧
  (∀ v ∈ s.pool, v < s.nextId)

/-- Iterated allocation into one generation, dropping every returned
    handle (the embedder keeps no roots). -/
def allocN (s : GCState) (hint : Fin 3) : Nat → GCState
  | 0 => s
  | n + 1 => (create_variable (allocN s hint n) hint).st

/-- An example collector state: cells 0 and 1 hold arrays referencing each
    other (a two-cell cycle), both tracked in the youngest generation, with
    no external roots. -/
def gcCycle2 : GCState :=
  { vals := fun v => if v = 0 then [1] else if v = 1 then [0] else []
    init := fun v => v = 0 || v = 1
    roots := fun _ => 0
    tracked := fun j => if j = 2 then [0, 1] else []
    counts := fun _ => 0
    thres := defaultThres
    pool := []
    recur := 0
    vars := [0, 1]
    nextId := 2 }

/-- An example collector state: cell 1 is tracked in the youngest
    generation and externally rooted, so a youngest-generation collection
    promotes it. -/
def gcRooted1 : GCState :=
  { vals := fun _ => []
    init := fun _ => false
    roots := fun v => if v = 1 then 1 else 0
    tracked := fun j => if j = 2 then [1] else []
    counts := fun _ => 0
    thres := defaultThres
    pool := []
    recur := 0
    vars := [1]
    nextId := 2 }

/-- The situation of claim C1 before collection: a set `S` of cells tracked
    (only) in generation `g`, holding values whose references stay inside
    `S`, referenced by nothing outside `S` — no external roots, no pool
    entries, no references from other cells — inside a well-formed heap. -/
def CycleState (s : GCState) (g : Fin 3) (S : List Nat) : Prop :=
  s.recur = 0 ∧
  s.vars.Nodup ∧
  (∀ j : Fin 3, (s.tracked j).Nodup) ∧
  (∀ j : Fin 3, ∀ v ∈ s.tracked j, v ∈ s.vars) ∧
  (∀ u ∈ s.vars, ∀ w ∈ s.vals u, w ∈ s.vars) ∧
  (∀ v ∈ S, v ∈ s.vars) ∧
  (∀ v ∈ S, v ∈ s.tracked (gIdx g)) ∧
  (∀ j : Fin 3, j ≠ gIdx g → ∀ v ∈ S, v ∉ s.tracked j) ∧
  (∀ v ∈ S, s.roots v = 0) ∧
  (∀ v ∈ S, v ∉ s.pool) ∧
  (∀ v ∈ S, ∀ w ∈ s.vals v, w ∈ S) ∧
  (∀ u ∈ s.vars, ∀ v ∈ S, v ∈ s.vals u → u ∈ S)

/-- The situation after the cells of `S` have been reclaimed: uninitialized,
    value-free, untracked and unreferenced, inside a well-formed heap. -/
def ReclaimedState (s : GCState) (S : List Nat) : Prop :=
  s.recur = 0 ∧
  s.vars.Nodup ∧
  (∀ j : Fin 3, (s.tracked j).Nodup) ∧
  (∀ j : Fin 3, ∀ v ∈ s.tracked j, v ∈ s.vars) ∧
  (∀ u ∈ s.vars, ∀ w ∈ s.vals u, w ∈ s.vars) ∧
  (∀ v ∈ S, s.init v = false) ∧
  (∀ v ∈ S, s.vals v = []) ∧
  (∀ j : Fin 3, ∀ v ∈ S, v ∉ s.tracked j) ∧
  (∀ u ∈ s.vars, ∀ v ∈ S, v ∉ s.vals u)

/-- The state of a fresh collector after `k` straight-line allocations via
    `create_variable(gc_generation_newest)` with every handle dropped: ids
    1..k handed out, all tracked in the youngest storage slot with its
    counter at `k`, nothing initialized and nothing pooled.  Stated
    pointwise over the observable components. -/
def FreshInv (k : Nat) (s : GCState) : Prop :=
  (∀ w, s.vals w = []) ∧
  (∀ w, s.init w = false) ∧
  (∀ w, s.roots w = 0) ∧
  s.tracked 2 = (List.range k).map (fun i => i + 1) ∧
  s.tracked 0 = [] ∧
  s.tracked 1 = [] ∧
  s.counts 2 = k ∧
  s.counts 0 = 0 ∧
  s.counts 1 = 0 ∧
  s.thres = defaultThres ∧
  s.pool = [] ∧
  s.recur = 0 ∧
  s.vars = (List.range k).map (fun i => i + 1) ∧
  s.nextId = k + 1

/-- `collect_variables(gen_limit)`: collect every generation up to the
    limit, youngest first, then clear the pool; returns the total number of
    variables collected and the new state. -/
def collect_variables (s : GCState) (gen_limit : Fin 3) : Nat × GCState :=
  let run := ((List.finRange 3).filter (fun g => g.val ≤ gen_limit.val)).foldl
    (fun (acc : Nat × GCState) g =>
      let r := do_collect_generation acc.2 g
      (acc.1 + r.1, r.2))
    (0, s)
  (run.1, { run.2 with pool := [] })

/-! ## Lemmas: numeric-literal bounds -/

/-- A digit found among the first `rbase * 2` table entries has value below
    `rbase`, and below 16 (the table has 32 entries). -/
theorem digitFind_lt {rbase : Nat} {c : Char} {d : Nat}
    (h : digitFind (rbase * 2) c = some d) : d < rbase ∧ d < 16 := by
  unfold digitFind at h
  cases hf : (sDigits.take (rbase * 2)).findIdx? (fun x => x = c) with
  | none => rw [hf] at h; exact absurd h (by simp)
  | some i =>
    rw [hf] at h
    have hi : i < (sDigits.take (rbase * 2)).length :=
      (List.findIdx?_eq_some_iff_findIdx_eq.mp hf).1
    have hlen : (sDigits.take (rbase * 2)).length ≤ rbase * 2 := by
      rw [List.length_take]; omega
    have hlen32 : (sDigits.take (rbase * 2)).length ≤ 32 := by
      rw [List.length_take]
      have : sDigits.length = 32 := by decide
      omega
    have : d = i / 2 := by simpa using h.symm
    subst this
    omega

/-- The significand value can only grow along the fold. -/
theorem digitsVal_go_le (rbase : Nat) (h1 : 1 ≤ rbase) (cs : List Char) :
    ∀ a : Nat,
      a ≤ cs.foldl (fun x ch =>
        match digitFind (rbase * 2) ch with
        | none => x
        | some d => x * rbase + d) a := by
  induction cs with
  | nil => intro a; simp
  | cons ch cs ih =>
    intro a
    simp only [List.foldl_cons]
    cases h : digitFind (rbase * 2) ch with
    | none => exact ih a
    | some d =>
      refine le_trans ?_ (ih (a * rbase + d))
      calc a = a * 1 := (Nat.mul_one a).symm
        _ ≤ a * rbase := Nat.mul_le_mul_left a h1
        _ ≤ a * rbase + d := Nat.le_add_right _ _

/-- The significand fold computes the digit value when it stays within
    `2^63 = 0x8000000000000000`, and reports overflow exactly when the value
    exceeds it. -/
theorem intSigFold_go (rbase : Nat) (h2 : 2 ≤ rbase) (cs : List Char) :
    ∀ a : Nat, a ≤ 0x8000000000000000 →
      (cs.foldlM (fun value ch =>
          match digitFind (rbase * 2) ch with
          | none => Except.ok value
          | some d =>
            if value > (0x8000000000000000 - d) / rbase then Except.error ()
            else Except.ok (value * rbase + d)) a : Except Unit Nat) =
        (if cs.foldl (fun x ch =>
            match digitFind (rbase * 2) ch with
            | none => x
            | some d => x * rbase + d) a ≤ 0x8000000000000000
         then Except.ok (cs.foldl (fun x ch =>
            match digitFind (rbase * 2) ch with
            | none => x
            | some d => x * rbase + d) a)
         else Except.error ()) := by
  induction cs with
  | nil =>
    intro a ha
    simp only [List.foldlM_nil, List.foldl_nil]
    rw [if_pos ha]
    rfl
  | cons ch cs ih =>
    intro a ha
    simp only [List.foldlM_cons, List.foldl_cons]
    cases h : digitFind (rbase * 2) ch with
    | none =>
      dsimp only
      exact ih a ha
    | some d =>
      dsimp only
      have hd : d < rbase ∧ d < 16 := digitFind_lt h
      have hdiv : a ≤ (0x8000000000000000 - d) / rbase ↔
          a * rbase + d ≤ 0x8000000000000000 := by
        rw [Nat.le_div_iff_mul_le (by omega : 0 < rbase)]
        omega
      by_cases hb : a > (0x8000000000000000 - d) / rbase
      · have hgt : ¬ a * rbase + d ≤ 0x8000000000000000 := by omega
        have hgt2 : ¬ cs.foldl (fun x ch =>
            match digitFind (rbase * 2) ch with
            | none => x
            | some d => x * rbase + d) (a * rbase + d) ≤ 0x8000000000000000 := by
          have := digitsVal_go_le rbase (by omega) cs (a * rbase + d)
          omega
        rw [if_pos hb, if_neg hgt2]
        rfl
      · have hle : a * rbase + d ≤ 0x8000000000000000 := hdiv.mp (by omega)
        rw [if_neg hb]
        exact ih (a * rbase + d) hle

/-- The exponent loop of the integer path computes `v * pbase ^ k` when that
    stays within `2^63`, and reports overflow exactly when it exceeds it. -/
theorem intPowLoop_spec (pbase : Nat) (h2 : 2 ≤ pbase) :
    ∀ (k v : Nat), v ≤ 0x8000000000000000 →
      intPowLoop pbase v k =
        (if v * pbase ^ k ≤ 0x8000000000000000 then Except.ok (v * pbase ^ k)
         else Except.error ()) := by
  intro k
  induction k with
  | zero =>
    intro v hv
    simp only [intPowLoop, pow_zero, Nat.mul_one]
    rw [if_pos hv]
  | succ k ih =>
    intro v hv
    have hdiv : v ≤ 0x8000000000000000 / pbase ↔ v * pbase ≤ 0x8000000000000000 :=
      Nat.le_div_iff_mul_le (by omega : 0 < pbase)
    simp only [intPowLoop]
    by_cases hb : v > 0x8000000000000000 / pbase
    · have h1 : ¬ v * pbase ≤ 0x8000000000000000 := by omega
      have h3 : ¬ v * pbase ^ (k + 1) ≤ 0x8000000000000000 := by
        have hp : 1 ≤ pbase ^ k := Nat.one_le_pow _ _ (by omega)
        have hmono : v * pbase ≤ v * pbase * pbase ^ k :=
          Nat.le_mul_of_pos_right _ (by omega)
        have heq : v * pbase * pbase ^ k = v * pbase ^ (k + 1) := by ring
        omega
      rw [if_pos hb, if_neg h3]
    · have hle : v * pbase ≤ 0x8000000000000000 := hdiv.mp (by omega)
      rw [if_neg hb, ih (v * pbase) hle]
      have heq : v * pbase * pbase ^ k = v * pbase ^ (k + 1) := by ring
      rw [heq]

/-- An integer literal whose mathematical magnitude exceeds `2^63` makes the
    integer evaluation overflow. -/
theorem intLiteralEval_overflow (rbase pbase exp : Nat) (cs : List Char)
    (h2 : 2 ≤ rbase) (hm : 0x8000000000000000 < intMagnitude rbase pbase exp cs) :
    intLiteralEval rbase pbase exp cs = Except.error () := by
  have hsig := intSigFold_go rbase h2 cs 0 (by omega)
  unfold intLiteralEval intSigFold
  rw [hsig]
  unfold intMagnitude digitsVal at hm
  by_cases hdv : cs.foldl (fun x ch =>
      match digitFind (rbase * 2) ch with
      | none => x
      | some d => x * rbase + d) 0 ≤ 0x8000000000000000
  · rw [if_pos hdv]
    dsimp only
    by_cases hpb : 2 ≤ pbase
    · rw [if_pos hpb] at hm
      have hne : cs.foldl (fun x ch =>
          match digitFind (rbase * 2) ch with
          | none => x
          | some d => x * rbase + d) 0 ≠ 0 := by
        intro h0
        rw [h0] at hm
        omega
      rw [if_pos ⟨hne, hpb⟩]
      rw [intPowLoop_spec pbase hpb exp _ hdv, if_neg (by omega)]
    · rw [if_neg hpb] at hm
      omega
  · rw [if_neg hdv]

/-! ## Lemmas: longest-match punctuator selection -/

/-- `find?` decomposes the list around its result, with no earlier match. -/
theorem find?_split {α : Type} (p : α → Bool) :
    ∀ (l : List α) (r : α), l.find? p = some r →
      ∃ l₁ l₂, l = l₁ ++ r :: l₂ ∧ p r = true ∧ ∀ y ∈ l₁, p y = false := by
  intro l
  induction l with
  | nil => intro r h; exact absurd h (by simp)
  | cons a tl ih =>
    intro r h
    by_cases ha : p a = true
    · rw [List.find?_cons_of_pos _ ha] at h
      have hra : r = a := by simpa using h.symm
      subst hra
      exact ⟨[], tl, rfl, ha, by simp⟩
    · rw [List.find?_cons_of_neg _ (by simpa using ha)] at h
      obtain ⟨l₁, l₂, he, hr, hnone⟩ := ih r h
      refine ⟨a :: l₁, l₂, by rw [he]; rfl, hr, ?_⟩
      intro y hy
      rcases List.mem_cons.mp hy with hy | hy
      · rw [hy]; simpa using ha
      · exact hnone y hy

/-- `find?` over a reversed list decomposes the original list around its
    result, with no later match. -/
theorem find?_reverse_split {α : Type} (p : α → Bool) (l : List α) (r : α)
    (h : l.reverse.find? p = some r) :
    ∃ l₁ l₂, l = l₁ ++ r :: l₂ ∧ p r = true ∧ ∀ y ∈ l₂, p y = false := by
  obtain ⟨m₁, m₂, he, hr, hnone⟩ := find?_split p l.reverse r h
  refine ⟨m₂.reverse, m₁.reverse, ?_, hr, ?_⟩
  · have : l.reverse.reverse = (m₁ ++ r :: m₂).reverse := by rw [he]
    simpa using this
  · intro y hy
    exact hnone y (List.mem_reverse.mp hy)

/-- In the punctuator table, a lexeme that has another entry's lexeme as a
    proper prefix comes after it (the table is sorted). -/
theorem punctTable_pairwise :
    punctTable.Pairwise (fun a b => b.1.isPrefixOf a.1 = true → a.1 = b.1) := by
  decide

/-- Every punctuator-table lexeme is non-empty. -/
theorem punctTable_ne_nil : ∀ e ∈ punctTable, e.1 ≠ [] := by decide

/-! ## Claim theorems: lexer -/

/-- Claim C2 (code_bug evidence): the `zero` flag of the real-literal path is
    the constant `true` for every input, because the source initializes it
    with `bool zero = true;` and only ever executes `zero |= dvalue;`.
    Hence the guard `(fpcls == FP_ZERO) && !zero` never fires and
    `code_real_literal_underflow` is unreachable: a real literal with
    non-zero digits whose value rounds to exact zero is accepted as `0.0`
    instead of failing as the specification demands. -/
theorem real_literal_underflow_unreachable :
    ∀ (rbase : Nat) (intCs fracCs : List Char), zeroFlag rbase intCs fracCs = true := by
  intro rbase intCs fracCs
  unfold zeroFlag
  generalize intCs ++ fracCs = cs
  have go : ∀ (l : List Char) (z : Bool), z = true →
      l.foldl (fun z ch =>
        match digitFind (rbase * 2) ch with
        | none => z
        | some d => z || decide (d ≠ 0)) z = true := by
    intro l
    induction l with
    | nil => intro z hz; simpa using hz
    | cons ch tl ih =>
      intro z hz
      simp only [List.foldl_cons]
      cases h : digitFind (rbase * 2) ch with
      | none => exact ih z hz
      | some d => exact ih _ (by rw [hz]; simp)
  exact go cs true rfl

/-- Claim C3 (counterexample): lexing `1 + + 2` produces FOUR tokens — the
    second `+` is not contiguous with the digits (`offset 4 + length 1 ≠ 6`),
    so `do_check_mergeability` refuses the merge and the `+` stays a
    punctuator. -/
theorem lex_spaced_sign_not_merged :
    Token_Stream_load {} ["1 + + 2".toList] =
      .ok [⟨1, 0, 1, .integer_literal 1⟩,
           ⟨1, 2, 1, .punctuator .punctuator_add⟩,
           ⟨1, 4, 1, .punctuator .punctuator_add⟩,
           ⟨1, 6, 1, .integer_literal 2⟩] := by rfl

/-- Claim C3 (amended): with the sign punctuator contiguous to the digits,
    `1 + +2` lexes to exactly three tokens — integer `1`, punctuator `+`,
    and the signed integer literal `+2` into which the second `+` is
    merged (the merged token spans offsets 4–5). -/
theorem lex_contiguous_sign_merged :
    Token_Stream_load {} ["1 + +2".toList] =
      .ok [⟨1, 0, 1, .integer_literal 1⟩,
           ⟨1, 2, 1, .punctuator .punctuator_add⟩,
           ⟨1, 4, 2, .integer_literal 2⟩] := by rfl

/-- Claim C4: `-0x8000000000000000` lexes to the single integer token
    `INT64_MIN` (the `-` punctuator is removed and merged); the same literal
    without the merged sign fails with `integer_literal_overflow`; and in
    general the integer evaluation overflows for every literal whose
    mathematical magnitude exceeds `2^63`. -/
theorem integer_literal_min_and_overflow :
    (Token_Stream_load {} ["-0x8000000000000000".toList] =
      .ok [⟨1, 0, 19, .integer_literal (-9223372036854775808)⟩]) ∧
    (Token_Stream_load {} ["0x8000000000000000".toList] =
      .error (.parse ⟨1, 0, 18, .integer_literal_overflow⟩)) ∧
    (∀ (rbase pbase exp : Nat) (cs : List Char), 2 ≤ rbase →
      0x8000000000000000 < intMagnitude rbase pbase exp cs →
      intLiteralEval rbase pbase exp cs = Except.error ()) :=
  ⟨by rfl, by rfl, fun rbase pbase exp cs h2 hm => intLiteralEval_overflow rbase pbase exp cs h2 hm⟩

/-- Claim C4 (witness): the 17-digit hex literal `10000000000000001`
    (magnitude `2^64 + 1 > 2^63`) makes the integer evaluation overflow. -/
theorem integer_literal_min_and_overflow_witness :
    0x8000000000000000 < intMagnitude 16 0 0 "10000000000000001".toList ∧
    intLiteralEval 16 0 0 "10000000000000001".toList = Except.error () :=
  ⟨by decide, integer_literal_min_and_overflow.2.2 16 0 0 "10000000000000001".toList
      (by decide) (by decide)⟩

/-- Claim C5: wherever `do_accept_punctuator` selects a table entry, that
    entry's lexeme is a prefix of the remaining input and no table entry
    with a longer lexeme is a prefix of the remaining input; in particular
    `<<<=` lexes to the single `<<<=` punctuator, not to `<<` + `<=`. -/
theorem punctuator_longest_match :
    (∀ (rem : List Char) (e : List Char × Punct), findPunct rem = some e →
        e ∈ punctTable ∧ e.1 <+: rem ∧
        ∀ e' ∈ punctTable, e'.1 <+: rem → e'.1.length ≤ e.1.length) ∧
    Token_Stream_load {} ["<<<=".toList] =
      .ok [⟨1, 0, 4, .punctuator .punctuator_sll_eq⟩] := by
  constructor
  · intro rem e h
    unfold findPunct at h
    obtain ⟨l₁, l₂, hfl, hpr, hlast⟩ :=
      find?_reverse_split (fun x => x.1.isPrefixOf rem) _ e h
    have hmem : e ∈ punctTable := by
      have hin : e ∈ l₁ ++ e :: l₂ := List.mem_append_right _ (List.mem_cons_self _ _)
      rw [← hfl] at hin
      exact List.mem_of_mem_filter hin
    have hpre : e.1 <+: rem := List.isPrefixOf_iff_prefix.mp hpr
    refine ⟨hmem, hpre, ?_⟩
    intro e' he' hp'
    have hne : e'.1 ≠ [] := punctTable_ne_nil e' he'
    have hfilt : e' ∈ punctTable.filter
        (fun x => x.1.getD 0 chNul = rem.getD 0 chNul) := by
      rw [List.mem_filter]
      refine ⟨he', ?_⟩
      obtain ⟨t, ht⟩ := hp'
      cases hc : e'.1 with
      | nil => exact absurd hc hne
      | cons c cs =>
        have hrem : rem = c :: (cs ++ t) := by rw [← ht, hc]; rfl
        rw [hrem]
        simp
    rw [hfl] at hfilt
    rcases List.mem_append.mp hfilt with h1 | h2
    · rcases List.prefix_or_prefix_of_prefix hp' hpre with hpp | hpp
      · exact hpp.length_le
      · have hpw : (punctTable.filter
            (fun x => x.1.getD 0 chNul = rem.getD 0 chNul)).Pairwise
            (fun a b => b.1.isPrefixOf a.1 = true → a.1 = b.1) :=
          punctTable_pairwise.sublist (List.filter_sublist _)
        rw [hfl] at hpw
        have hrel := (List.pairwise_append.mp hpw).2.2 e' h1 e (List.mem_cons_self _ _)
        have heq : e'.1 = e.1 := hrel (List.isPrefixOf_iff_prefix.mpr hpp)
        rw [heq]
    · rcases List.mem_cons.mp h2 with h2 | h2
      · rw [h2]
      · have htrue : e'.1.isPrefixOf rem = true := List.isPrefixOf_iff_prefix.mpr hp'
        rw [hlast e' h2] at htrue
        simp at htrue
  · rfl

/-- Claim C5 (witness): at the input `<<<=` the selector picks the
    four-byte table entry `<<<=`, which is a prefix of the input and at
    least as long as the two-byte prefix `<<`. -/
theorem punctuator_longest_match_witness :
    (['<', '<', '<', '='], Punct.punctuator_sll_eq) ∈ punctTable ∧
    ['<', '<', '<', '='] <+: "<<<=".toList ∧
    (['<', '<'] : List Char).length ≤ (['<', '<', '<', '='] : List Char).length := by
  have h := punctuator_longest_match.1 "<<<=".toList
    (['<', '<', '<', '='], Punct.punctuator_sll_eq) (by rfl)
  exact ⟨h.1, h.2.1, h.2.2 (['<', '<'], Punct.punctuator_sla) (by decide) (by decide)⟩

/-- Claim C6 (counterexample): after a failed load the stream is in the
    error state, but the emptiness probe `Token_Stream::empty` returns
    `true` — exactly the answer a successful empty stream gives — so the
    emptiness probe does NOT observe the error. -/
theorem error_stream_empty_as_success :
    TS_load {} [['@']] = .state_error ⟨1, 0, 1, .token_character_unrecognized⟩ ∧
    TS_empty (TS_load {} [['@']]) = TS_empty (.state_success []) := ⟨by rfl, by rfl⟩

/-- Claim C6 (amended): after a load that fails with a parse error the
    stream is in the error state; `peek_opt` and `shift` observe the error
    (they throw instead of answering), and `get_parser_error` returns the
    stored error, but `empty` returns `true` exactly as it does for a
    successful empty stream. -/
theorem error_state_probes :
    ∀ (opts : Parser_Options) (lines : List (List Char)) (e : Parser_Error),
      Token_Stream_load opts lines = .error (.parse e) →
      TS_load opts lines = .state_error e ∧
      (∃ msg, TS_peek_opt (TS_load opts lines) = .error msg) ∧
      (∃ msg, TS_shift (TS_load opts lines) = .error msg) ∧
      TS_get_parser_error (TS_load opts lines) = e ∧
      TS_empty (TS_load opts lines) = true := by
  intro opts lines e h
  have hst : TS_load opts lines = .state_error e := by
    unfold TS_load
    rw [h]
  rw [hst]
  exact ⟨rfl, ⟨_, rfl⟩, ⟨_, rfl⟩, rfl, rfl⟩

/-- Claim C6 (witness): the failing load of `@` exercises all of the
    probes in the error state. -/
theorem error_state_probes_witness :
    TS_load {} [['@']] = .state_error ⟨1, 0, 1, .token_character_unrecognized⟩ ∧
    TS_empty (TS_load {} [['@']]) = true :=
  have h := error_state_probes {} [['@']] ⟨1, 0, 1, .token_character_unrecognized⟩ (by rfl)
  ⟨h.1, h.2.2.2.2⟩

/-- Claim C9: a first line that begins with the two shebang bytes is
    discarded wholesale — before UTF-8 and NUL validation and before
    tokenization — so loading behaves exactly as if the first line were the
    two bytes `#!` themselves, whatever else (including invalid UTF-8 or
    NUL bytes) the shebang line contains. -/
theorem shebang_discarded_before_validation :
    ∀ (l1 : List Char) (rest : List (List Char)) (opts : Parser_Options),
      2 ≤ l1.length → l1.take 2 = ['#', '!'] →
      Token_Stream_load opts (l1 :: rest) = Token_Stream_load opts (['#', '!'] :: rest) := by
  intro l1 rest opts h1 h2
  unfold Token_Stream_load
  rw [loadLinesGo, loadLinesGo]
  rw [if_pos ⟨rfl, h1, h2⟩, if_pos ⟨rfl, by simp, rfl⟩]

/-- Claim C9 (witness): a shebang line containing the invalid UTF-8 byte
    `0xFF` is discarded; the rest of the input lexes normally. -/
theorem shebang_discarded_before_validation_witness :
    Token_Stream_load {} [['#', '!', Char.ofNat 255], ['1']] =
      Token_Stream_load {} [['#', '!'], ['1']] ∧
    Token_Stream_load {} [['#', '!', Char.ofNat 255], ['1']] =
      .ok [⟨2, 0, 1, .integer_literal 1⟩] := by
  have h := shebang_discarded_before_validation ['#', '!', Char.ofNat 255] [['1']] {}
    (by decide) (by decide)
  exact ⟨h, by rw [h]; rfl⟩

/-! ## Lemmas: reachability iteration -/

/-- Every reachability iterate is duplicate-free. -/
theorem iterCl_nodup (vals : Nat → List Nat) (start : List Nat) :
    ∀ n, (iterCl vals start n).Nodup := by
  intro n
  cases n with
  | zero => exact start.nodup_dedup
  | succ n => exact List.nodup_dedup _

/-- The start set is contained in every reachability iterate. -/
theorem mem_iterCl_of_mem_start (vals : Nat → List Nat) (start : List Nat)
    (a : Nat) (ha : a ∈ start) : ∀ n, a ∈ iterCl vals start n := by
  intro n
  induction n with
  | zero => exact List.mem_dedup.mpr ha
  | succ n ih =>
    unfold iterCl stepCl
    exact List.mem_dedup.mpr (List.mem_append_left _ ih)

/-- A predicate that holds on the start set and is preserved along value
    references holds on every reachability iterate. -/
theorem iterCl_inv (vals : Nat → List Nat) (start : List Nat) (P : Nat → Prop)
    (hstart : ∀ a ∈ start, P a) (hstep : ∀ u, P u → ∀ w ∈ vals u, P w) :
    ∀ n, ∀ a ∈ iterCl vals start n, P a := by
  intro n
  induction n with
  | zero =>
    intro a ha
    exact hstart a (List.mem_dedup.mp ha)
  | succ n ih =>
    intro a ha
    unfold iterCl stepCl at ha
    rcases List.mem_append.mp (List.mem_dedup.mp ha) with h | h
    · exact ih a h
    · obtain ⟨u, hu, hau⟩ := List.mem_flatMap.mp h
      exact hstep u (ih u hu) a hau

/-- The unreachable and reachable sets of a collection are disjoint. -/
theorem unreachSet_disjoint_reachSet (s : GCState) (gen : Fin 3) :
    ∀ v ∈ unreachSet s gen, v ∉ reachSet s gen := by
  intro v hv
  have := List.mem_filter.mp hv
  simpa using this.2

/-- Members of the unreachable set belong to the closure. -/
theorem unreachSet_subset_closure (s : GCState) (gen : Fin 3) :
    ∀ v ∈ unreachSet s gen, v ∈ closureOf s gen := fun _ hv =>
  List.mem_of_mem_filter hv

/-- The unreachable set is duplicate-free. -/
theorem unreachSet_nodup (s : GCState) (gen : Fin 3) : (unreachSet s gen).Nodup :=
  (iterCl_nodup _ _ _).filter _

/-- The reachable set is duplicate-free. -/
theorem reachSet_nodup (s : GCState) (gen : Fin 3) : (reachSet s gen).Nodup :=
  iterCl_nodup _ _ _

/-- When the collected generation exists below the oldest, its storage index
    differs from the next generation's. -/
theorem gIdx_ne_nextIdx (gen : Fin 3) (hg : gen.val < 2) : gIdx gen ≠ nextIdx gen := by
  unfold gIdx nextIdx
  intro h
  have := congrArg Fin.val h
  simp at this
  omega

/-! ## Lemmas: the reclamation drain -/

/-- Bookkeeping fields untouched by the reclamation drain, and the collected
    count. -/
theorem drain_fold_fields (i : Fin 3) :
    ∀ (U : List Nat) (s : GCState) (n0 : Nat),
      (U.foldl (drainStep i) (s, n0)).1.counts = s.counts ∧
      (U.foldl (drainStep i) (s, n0)).1.thres = s.thres ∧
      (U.foldl (drainStep i) (s, n0)).1.roots = s.roots ∧
      (U.foldl (drainStep i) (s, n0)).1.vars = s.vars ∧
      (U.foldl (drainStep i) (s, n0)).1.recur = s.recur ∧
      (U.foldl (drainStep i) (s, n0)).1.nextId = s.nextId ∧
      (U.foldl (drainStep i) (s, n0)).2 = n0 + U.length := by
  intro U
  induction U with
  | nil => intro s n0; simp
  | cons v tl ih =>
    intro s n0
    simp only [List.foldl_cons]
    have h := ih (drainStep i (s, n0) v).1 (n0 + 1)
    unfold drainStep at h ⊢
    refine ⟨h.1, h.2.1, h.2.2.1, h.2.2.2.1, h.2.2.2.2.1, h.2.2.2.2.2.1, ?_⟩
    rw [h.2.2.2.2.2.2]
    simp [Nat.add_comm, Nat.add_assoc, Nat.add_left_comm]

/-- The values of drained variables are dropped; others are untouched. -/
theorem drain_fold_vals (i : Fin 3) :
    ∀ (U : List Nat) (s : GCState) (n0 : Nat) (w : Nat),
      (U.foldl (drainStep i) (s, n0)).1.vals w = if w ∈ U then [] else s.vals w := by
  intro U
  induction U with
  | nil => intro s n0 w; simp
  | cons v tl ih =>
    intro s n0 w
    simp only [List.foldl_cons]
    rw [ih]
    unfold drainStep
    by_cases h1 : w ∈ tl <;> by_cases h2 : w = v <;> simp [h1, h2]

/-- Drained variables are uninitialized; others are untouched. -/
theorem drain_fold_init (i : Fin 3) :
    ∀ (U : List Nat) (s : GCState) (n0 : Nat) (w : Nat),
      (U.foldl (drainStep i) (s, n0)).1.init w = if w ∈ U then false else s.init w := by
  intro U
  induction U with
  | nil => intro s n0 w; simp
  | cons v tl ih =>
    intro s n0 w
    simp only [List.foldl_cons]
    rw [ih]
    unfold drainStep
    by_cases h1 : w ∈ tl <;> by_cases h2 : w = v <;> simp [h1, h2]

/-- The drain only erases from the collected generation's tracked set. -/
theorem drain_fold_tracked_other (i : Fin 3) :
    ∀ (U : List Nat) (s : GCState) (n0 : Nat) (j : Fin 3), j ≠ i →
      (U.foldl (drainStep i) (s, n0)).1.tracked j = s.tracked j := by
  intro U
  induction U with
  | nil => intro s n0 j _; simp
  | cons v tl ih =>
    intro s n0 j hj
    simp only [List.foldl_cons]
    rw [ih _ _ j hj]
    unfold drainStep
    simp [hj]

/-- Membership in the collected generation's tracked set after the drain:
    exactly the previously tracked variables that were not drained. -/
theorem drain_fold_tracked_mem (i : Fin 3) :
    ∀ (U : List Nat) (s : GCState) (n0 : Nat), (s.tracked i).Nodup →
      ((∀ w, w ∈ (U.foldl (drainStep i) (s, n0)).1.tracked i ↔
          w ∈ s.tracked i ∧ w ∉ U) ∧
       ((U.foldl (drainStep i) (s, n0)).1.tracked i).Nodup) := by
  intro U
  induction U with
  | nil =>
    intro s n0 hnd
    constructor
    · intro w; simp
    · simpa using hnd
  | cons v tl ih =>
    intro s n0 hnd
    simp only [List.foldl_cons]
    have hstep : (drainStep i (s, n0) v).1.tracked i = (s.tracked i).erase v := by
      unfold drainStep; simp
    have hnd' : ((drainStep i (s, n0) v).1.tracked i).Nodup := by
      rw [hstep]; exact hnd.erase v
    rw [show drainStep i (s, n0) v = ((drainStep i (s, n0) v).1, n0 + 1) from rfl]
    obtain ⟨hmem, hndf⟩ := ih (drainStep i (s, n0) v).1 (n0 + 1) hnd'
    refine ⟨?_, hndf⟩
    intro w
    rw [hmem w, hstep, hnd.mem_erase_iff]
    simp only [List.mem_cons]
    constructor
    · rintro ⟨⟨hwv, hw⟩, hwtl⟩
      exact ⟨hw, by tauto⟩
    · rintro ⟨hw, hns⟩
      exact ⟨⟨by tauto, hw⟩, by tauto⟩

/-- The pool after the drain, as a list: the old pool followed by the
    drained variables that were tracked in the collected generation and not
    already pooled. -/
theorem drain_fold_pool (i : Fin 3) :
    ∀ (U : List Nat) (s : GCState) (n0 : Nat), U.Nodup →
      (U.foldl (drainStep i) (s, n0)).1.pool =
        s.pool ++ U.filter (fun v => decide (v ∈ s.tracked i ∧ v ∉ s.pool)) := by
  intro U
  induction U with
  | nil => intro s n0 _; simp
  | cons v tl ih =>
    intro s n0 hnd
    simp only [List.foldl_cons]
    have hvtl : v ∉ tl := (List.nodup_cons.mp hnd).1
    have hndtl : tl.Nodup := (List.nodup_cons.mp hnd).2
    rw [show drainStep i (s, n0) v = ((drainStep i (s, n0) v).1, n0 + 1) from rfl]
    rw [ih (drainStep i (s, n0) v).1 (n0 + 1) hndtl]
    have hpool : (drainStep i (s, n0) v).1.pool =
        if v ∈ s.tracked i ∧ v ∉ s.pool then s.pool ++ [v] else s.pool := by
      unfold drainStep; simp
    have htr : (drainStep i (s, n0) v).1.tracked i = (s.tracked i).erase v := by
      unfold drainStep; simp
    have hfilt : tl.filter (fun w => decide (w ∈ (drainStep i (s, n0) v).1.tracked i ∧
        w ∉ (drainStep i (s, n0) v).1.pool)) =
        tl.filter (fun w => decide (w ∈ s.tracked i ∧ w ∉ s.pool)) := by
      apply List.filter_congr
      intro w hw
      have hwv : w ≠ v := fun h => hvtl (h ▸ hw)
      rw [htr, hpool]
      by_cases hc : v ∈ s.tracked i ∧ v ∉ s.pool
      · rw [if_pos hc]
        simp only [decide_eq_decide, List.mem_erase_of_ne hwv, List.mem_append,
          List.mem_singleton]
        tauto
      · rw [if_neg hc]
        simp only [decide_eq_decide, List.mem_erase_of_ne hwv]
    rw [hfilt, hpool]
    by_cases hc : v ∈ s.tracked i ∧ v ∉ s.pool
    · rw [if_pos hc, List.filter_cons_of_pos (by simpa using hc)]
      simp
    · rw [if_neg hc, List.filter_cons_of_neg (by simpa using hc)]

/-- Pool membership after the drain. -/
theorem drain_fold_pool_mem (i : Fin 3) (U : List Nat) (s : GCState) (n0 : Nat)
    (hU : U.Nodup) (w : Nat) :
    w ∈ (U.foldl (drainStep i) (s, n0)).1.pool ↔
      w ∈ s.pool ∨ (w ∈ U ∧ w ∈ s.tracked i) := by
  rw [drain_fold_pool i U s n0 hU]
  simp only [List.mem_append, List.mem_filter, decide_eq_true_eq]
  tauto

/-! ## Lemmas: the promotion loop -/

/-- Fields untouched by the promotion loop. -/
theorem promote_fold_fields (i nx : Fin 3) :
    ∀ (R : List Nat) (s : GCState),
      (R.foldl (promoteStep i nx) s).vals = s.vals ∧
      (R.foldl (promoteStep i nx) s).init = s.init ∧
      (R.foldl (promoteStep i nx) s).roots = s.roots ∧
      (R.foldl (promoteStep i nx) s).thres = s.thres ∧
      (R.foldl (promoteStep i nx) s).vars = s.vars ∧
      (R.foldl (promoteStep i nx) s).recur = s.recur ∧
      (R.foldl (promoteStep i nx) s).nextId = s.nextId ∧
      (R.foldl (promoteStep i nx) s).pool = s.pool ∧
      (∀ j, j ≠ nx → (R.foldl (promoteStep i nx) s).counts j = s.counts j) := by
  intro R
  induction R with
  | nil => intro s; simp
  | cons v tl ih =>
    intro s
    simp only [List.foldl_cons]
    have h := ih (promoteStep i nx s v)
    have hstep : (promoteStep i nx s v).vals = s.vals ∧
        (promoteStep i nx s v).init = s.init ∧
        (promoteStep i nx s v).roots = s.roots ∧
        (promoteStep i nx s v).thres = s.thres ∧
        (promoteStep i nx s v).vars = s.vars ∧
        (promoteStep i nx s v).recur = s.recur ∧
        (promoteStep i nx s v).nextId = s.nextId ∧
        (promoteStep i nx s v).pool = s.pool ∧
        (∀ j, j ≠ nx → (promoteStep i nx s v).counts j = s.counts j) := by
      unfold promoteStep
      by_cases hv : v ∈ s.tracked i
      · rw [if_pos hv]
        refine ⟨rfl, rfl, rfl, rfl, rfl, rfl, rfl, rfl, ?_⟩
        intro j hj
        simp [hj]
      · rw [if_neg hv]
        exact ⟨rfl, rfl, rfl, rfl, rfl, rfl, rfl, rfl, fun j _ => rfl⟩
    refine ⟨?_, ?_, ?_, ?_, ?_, ?_, ?_, ?_, ?_⟩
    · rw [h.1, hstep.1]
    · rw [h.2.1, hstep.2.1]
    · rw [h.2.2.1, hstep.2.2.1]
    · rw [h.2.2.2.1, hstep.2.2.2.1]
    · rw [h.2.2.2.2.1, hstep.2.2.2.2.1]
    · rw [h.2.2.2.2.2.1, hstep.2.2.2.2.2.1]
    · rw [h.2.2.2.2.2.2.1, hstep.2.2.2.2.2.2.1]
    · rw [h.2.2.2.2.2.2.2.1, hstep.2.2.2.2.2.2.2.1]
    · intro j hj
      rw [h.2.2.2.2.2.2.2.2 j hj, hstep.2.2.2.2.2.2.2.2 j hj]

/-- The promotion loop only touches the collected and next tracked sets. -/
theorem promote_fold_tracked_other (i nx : Fin 3) :
    ∀ (R : List Nat) (s : GCState) (j : Fin 3), j ≠ i → j ≠ nx →
      (R.foldl (promoteStep i nx) s).tracked j = s.tracked j := by
  intro R
  induction R with
  | nil => intro s j _ _; simp
  | cons v tl ih =>
    intro s j hji hjnx
    simp only [List.foldl_cons]
    rw [ih _ j hji hjnx]
    unfold promoteStep
    by_cases hv : v ∈ s.tracked i
    · rw [if_pos hv]; simp [hji, hjnx]
    · rw [if_neg hv]; simp [hjnx]

/-- Membership in the collected generation's tracked set after promotion:
    the promoted variables are gone. -/
theorem promote_fold_tracked_i (i nx : Fin 3) (hne : i ≠ nx) :
    ∀ (R : List Nat) (s : GCState), (s.tracked i).Nodup →
      ((∀ w, w ∈ (R.foldl (promoteStep i nx) s).tracked i ↔
          w ∈ s.tracked i ∧ w ∉ R) ∧
       ((R.foldl (promoteStep i nx) s).tracked i).Nodup) := by
  intro R
  induction R with
  | nil =>
    intro s hnd
    exact ⟨by intro w; simp, by simpa using hnd⟩
  | cons v tl ih =>
    intro s hnd
    simp only [List.foldl_cons]
    have hstep : (promoteStep i nx s v).tracked i =
        (if v ∈ s.tracked i then (s.tracked i).erase v else s.tracked i) := by
      unfold promoteStep
      by_cases hv : v ∈ s.tracked i
      · rw [if_pos hv, if_pos hv]
        dsimp only
        rw [if_pos rfl]
      · rw [if_neg hv, if_neg hv]
        dsimp only
        rw [if_neg hne]
    have hnd' : ((promoteStep i nx s v).tracked i).Nodup := by
      rw [hstep]
      by_cases hv : v ∈ s.tracked i
      · rw [if_pos hv]; exact hnd.erase v
      · rw [if_neg hv]; exact hnd
    obtain ⟨hmem, hndf⟩ := ih (promoteStep i nx s v) hnd'
    refine ⟨?_, hndf⟩
    intro w
    rw [hmem w, hstep]
    by_cases hv : v ∈ s.tracked i
    · rw [if_pos hv, hnd.mem_erase_iff]
      simp only [List.mem_cons]
      tauto
    · rw [if_neg hv]
      simp only [List.mem_cons]
      constructor
      · rintro ⟨hw, hntl⟩
        refine ⟨hw, ?_⟩
        rintro (rfl | h)
        · exact hv hw
        · exact hntl h
      · rintro ⟨hw, hn⟩
        exact ⟨hw, fun h => hn (Or.inr h)⟩

/-- Membership in an insert-if-absent. -/
theorem mem_insert_if (L : List Nat) (v w : Nat) :
    w ∈ (if v ∈ L then L else L ++ [v]) ↔ w ∈ L ∨ w = v := by
  by_cases hv : v ∈ L
  · rw [if_pos hv]
    constructor
    · exact Or.inl
    · rintro (h | rfl)
      · exact h
      · exact hv
  · rw [if_neg hv]
    simp

/-- An insert-if-absent of a duplicate-free list is duplicate-free. -/
theorem nodup_insert_if (L : List Nat) (v : Nat) (hnd : L.Nodup) :
    (if v ∈ L then L else L ++ [v]).Nodup := by
  by_cases hv : v ∈ L
  · rw [if_pos hv]; exact hnd
  · rw [if_neg hv]
    simpa [List.nodup_append, hv] using hnd

/-- Membership in the next generation's tracked set after promotion: a
    promoted variable is present exactly when it was tracked in the
    collected generation (this includes the undo that erases a pre-existing
    entry for a reachable variable that was not tracked there); other
    variables are untouched. -/
theorem promote_fold_tracked_nx (i nx : Fin 3) (hne : i ≠ nx) :
    ∀ (R : List Nat) (s : GCState), R.Nodup → (s.tracked nx).Nodup →
      ((∀ w, w ∈ (R.foldl (promoteStep i nx) s).tracked nx ↔
          (if w ∈ R then w ∈ s.tracked i else w ∈ s.tracked nx)) ∧
       ((R.foldl (promoteStep i nx) s).tracked nx).Nodup) := by
  intro R
  induction R with
  | nil =>
    intro s _ hnd
    exact ⟨by intro w; simp, by simpa using hnd⟩
  | cons v tl ih =>
    intro s hndR hnd
    have hvtl : v ∉ tl := (List.nodup_cons.mp hndR).1
    have hndtl : tl.Nodup := (List.nodup_cons.mp hndR).2
    simp only [List.foldl_cons]
    have hstep_nx_eq : (promoteStep i nx s v).tracked nx =
        (if v ∈ s.tracked i
          then (if v ∈ s.tracked nx then s.tracked nx else s.tracked nx ++ [v])
          else (if v ∈ s.tracked nx then s.tracked nx else s.tracked nx ++ [v]).erase v) := by
      unfold promoteStep
      by_cases hv : v ∈ s.tracked i
      · rw [if_pos hv, if_pos hv]
        dsimp only
        rw [if_neg (Ne.symm hne), if_pos rfl]
      · rw [if_neg hv, if_neg hv]
        dsimp only
        rw [if_pos rfl]
    have hstep_nx : ∀ w, w ∈ (promoteStep i nx s v).tracked nx ↔
        (if w = v then v ∈ s.tracked i else w ∈ s.tracked nx) := by
      intro w
      rw [hstep_nx_eq]
      by_cases hv : v ∈ s.tracked i
      · rw [if_pos hv, mem_insert_if]
        by_cases hw : w = v
        · subst hw
          simp [hv]
        · simp [hw]
      · rw [if_neg hv, (nodup_insert_if _ v hnd).mem_erase_iff, mem_insert_if]
        by_cases hw : w = v
        · subst hw
          simp [hv]
        · simp [hw]
    have hstep_nx_nodup : ((promoteStep i nx s v).tracked nx).Nodup := by
      rw [hstep_nx_eq]
      by_cases hv : v ∈ s.tracked i
      · rw [if_pos hv]
        exact nodup_insert_if _ v hnd
      · rw [if_neg hv]
        exact (nodup_insert_if _ v hnd).erase v
    have hstep_i_eq : (promoteStep i nx s v).tracked i =
        (if v ∈ s.tracked i then (s.tracked i).erase v else s.tracked i) := by
      unfold promoteStep
      by_cases hv : v ∈ s.tracked i
      · rw [if_pos hv, if_pos hv]
        dsimp only
        rw [if_pos rfl]
      · rw [if_neg hv, if_neg hv]
        dsimp only
        rw [if_neg hne]
    have hstep_i : ∀ w, w ≠ v → (w ∈ (promoteStep i nx s v).tracked i ↔ w ∈ s.tracked i) := by
      intro w hw
      rw [hstep_i_eq]
      by_cases hv : v ∈ s.tracked i
      · rw [if_pos hv]
        exact List.mem_erase_of_ne hw
      · rw [if_neg hv]
    obtain ⟨hmem, hndf⟩ := ih (promoteStep i nx s v) hndtl hstep_nx_nodup
    refine ⟨?_, hndf⟩
    intro w
    rw [hmem w]
    by_cases hwtl : w ∈ tl
    · have hwv : w ≠ v := fun h => hvtl (h ▸ hwtl)
      rw [if_pos hwtl, if_pos (List.mem_cons.mpr (Or.inr hwtl))]
      exact hstep_i w hwv
    · rw [if_neg hwtl, hstep_nx w]
      by_cases hwv : w = v
      · subst hwv
        rw [if_pos rfl, if_pos (List.mem_cons_self _ _)]
      · rw [if_neg hwv, if_neg (by simp [hwv, hwtl])]

/-- The next generation's allocation counter after promotion: incremented
    once per promoted variable that was actually tracked in the collected
    generation. -/
theorem promote_fold_counts (i nx : Fin 3) (hne : i ≠ nx) :
    ∀ (R : List Nat) (s : GCState), R.Nodup →
      (R.foldl (promoteStep i nx) s).counts nx =
        s.counts nx + (R.filter (fun v => decide (v ∈ s.tracked i))).length := by
  intro R
  induction R with
  | nil => intro s _; simp
  | cons v tl ih =>
    intro s hndR
    have hvtl : v ∉ tl := (List.nodup_cons.mp hndR).1
    have hndtl : tl.Nodup := (List.nodup_cons.mp hndR).2
    simp only [List.foldl_cons]
    rw [ih (promoteStep i nx s v) hndtl]
    have hstep_i_eq : (promoteStep i nx s v).tracked i =
        (if v ∈ s.tracked i then (s.tracked i).erase v else s.tracked i) := by
      unfold promoteStep
      by_cases hv : v ∈ s.tracked i
      · rw [if_pos hv, if_pos hv]
        dsimp only
        rw [if_pos rfl]
      · rw [if_neg hv, if_neg hv]
        dsimp only
        rw [if_neg hne]
    have hstep_i : ∀ w ∈ tl, (decide (w ∈ (promoteStep i nx s v).tracked i) =
        decide (w ∈ s.tracked i)) := by
      intro w hw
      have hwv : w ≠ v := fun h => hvtl (h ▸ hw)
      rw [hstep_i_eq]
      by_cases hv : v ∈ s.tracked i
      · rw [if_pos hv]
        simp only [decide_eq_decide]
        exact List.mem_erase_of_ne hwv
      · rw [if_neg hv]
    rw [List.filter_congr hstep_i]
    by_cases hv : v ∈ s.tracked i
    · have hcnt : (promoteStep i nx s v).counts nx = s.counts nx + 1 := by
        unfold promoteStep
        rw [if_pos hv]
        dsimp only
        rw [if_pos rfl]
      rw [hcnt, List.filter_cons_of_pos (by simpa using hv)]
      simp only [List.length_cons]
      omega
    · have hcnt : (promoteStep i nx s v).counts nx = s.counts nx := by
        unfold promoteStep
        rw [if_neg hv]
      rw [hcnt, List.filter_cons_of_neg (by simpa using hv)]

/-! ## The collection pass, characterized -/

/-- The full effect of one (non-re-entrant) collection pass on every
    observable component of the state, in terms of the unreachable and
    reachable sets. -/
theorem do_collect_spec (s : GCState) (gen : Fin 3) (hrec : s.recur = 0)
    (hndi : (s.tracked (gIdx gen)).Nodup)
    (hndnx : (s.tracked (nextIdx gen)).Nodup) :
    (do_collect_generation s gen).1 = (unreachSet s gen).length ∧
    (∀ w, (do_collect_generation s gen).2.vals w =
      if w ∈ unreachSet s gen then [] else s.vals w) ∧
    (∀ w, (do_collect_generation s gen).2.init w =
      if w ∈ unreachSet s gen then false else s.init w) ∧
    (do_collect_generation s gen).2.roots = s.roots ∧
    (do_collect_generation s gen).2.thres = s.thres ∧
    (do_collect_generation s gen).2.vars = s.vars ∧
    (do_collect_generation s gen).2.recur = s.recur ∧
    (do_collect_generation s gen).2.nextId = s.nextId ∧
    (∀ w, w ∈ (do_collect_generation s gen).2.pool ↔
      w ∈ s.pool ∨ (w ∈ unreachSet s gen ∧ w ∈ s.tracked (gIdx gen))) ∧
    ((do_collect_generation s gen).2.pool =
      s.pool ++ (unreachSet s gen).filter
        (fun v => decide (v ∈ s.tracked (gIdx gen) ∧ v ∉ s.pool))) ∧
    (∀ w, w ∈ (do_collect_generation s gen).2.tracked (gIdx gen) ↔
      w ∈ s.tracked (gIdx gen) ∧ w ∉ unreachSet s gen ∧
        (gen.val < 2 → w ∉ reachSet s gen)) ∧
    ((do_collect_generation s gen).2.tracked (gIdx gen)).Nodup ∧
    (∀ j, j ≠ gIdx gen → (gen.val < 2 → j ≠ nextIdx gen) →
      (do_collect_generation s gen).2.tracked j = s.tracked j) ∧
    (gen.val < 2 →
      (∀ w, w ∈ (do_collect_generation s gen).2.tracked (nextIdx gen) ↔
        (if w ∈ reachSet s gen
          then w ∈ s.tracked (gIdx gen) ∧ w ∉ unreachSet s gen
          else w ∈ s.tracked (nextIdx gen))) ∧
      ((do_collect_generation s gen).2.tracked (nextIdx gen)).Nodup) ∧
    (do_collect_generation s gen).2.counts (gIdx gen) = 0 ∧
    (gen.val < 2 → (do_collect_generation s gen).2.counts (nextIdx gen) =
      s.counts (nextIdx gen) +
        ((reachSet s gen).filter
          (fun v => decide (v ∈ s.tracked (gIdx gen) ∧ v ∉ unreachSet s gen))).length) ∧
    (∀ j, j ≠ gIdx gen → (gen.val < 2 → j ≠ nextIdx gen) →
      (do_collect_generation s gen).2.counts j = s.counts j) := by
  have hndU : (unreachSet s gen).Nodup := unreachSet_nodup s gen
  have hndR : (reachSet s gen).Nodup := reachSet_nodup s gen
  have hUR : ∀ v ∈ unreachSet s gen, v ∉ reachSet s gen :=
    unreachSet_disjoint_reachSet s gen
  -- drain facts
  have hdf := drain_fold_fields (gIdx gen) (unreachSet s gen) s 0
  have hdv := drain_fold_vals (gIdx gen) (unreachSet s gen) s 0
  have hdi := drain_fold_init (gIdx gen) (unreachSet s gen) s 0
  have hdo := drain_fold_tracked_other (gIdx gen) (unreachSet s gen) s 0
  have hdm := drain_fold_tracked_mem (gIdx gen) (unreachSet s gen) s 0 hndi
  have hdp := fun w => drain_fold_pool_mem (gIdx gen) (unreachSet s gen) s 0 hndU w
  set s₁ := ((unreachSet s gen).foldl (drainStep (gIdx gen)) (s, 0)).1 with hs₁def
  by_cases hg : gen.val < 2
  · -- a next generation exists: the promotion loop runs
    have hne : gIdx gen ≠ nextIdx gen := gIdx_ne_nextIdx gen hg
    have hnd₁i : (s₁.tracked (gIdx gen)).Nodup := hdm.2
    have hnd₁nx : (s₁.tracked (nextIdx gen)).Nodup := by
      rw [hdo (nextIdx gen) (Ne.symm hne)]
      exact hndnx
    have hpf := promote_fold_fields (gIdx gen) (nextIdx gen) (reachSet s gen) s₁
    have hpo := promote_fold_tracked_other (gIdx gen) (nextIdx gen) (reachSet s gen) s₁
    have hpi := promote_fold_tracked_i (gIdx gen) (nextIdx gen) hne (reachSet s gen) s₁ hnd₁i
    have hpnx := promote_fold_tracked_nx (gIdx gen) (nextIdx gen) hne (reachSet s gen) s₁
      hndR hnd₁nx
    have hpc := promote_fold_counts (gIdx gen) (nextIdx gen) hne (reachSet s gen) s₁ hndR
    have hrun : do_collect_generation s gen =
        ((unreachSet s gen).length,
         { (reachSet s gen).foldl (promoteStep (gIdx gen) (nextIdx gen)) s₁ with
            counts := fun j => if j = gIdx gen then 0
              else ((reachSet s gen).foldl (promoteStep (gIdx gen) (nextIdx gen)) s₁).counts j }) := by
      unfold do_collect_generation
      rw [if_neg (by omega)]
      dsimp only
      rw [if_pos hg]
      have : ((unreachSet s gen).foldl (drainStep (gIdx gen)) (s, 0)).2 =
          (unreachSet s gen).length := by
        rw [hdf.2.2.2.2.2.2]
        omega
      rw [← hs₁def, this]
    set s₂ := (reachSet s gen).foldl (promoteStep (gIdx gen) (nextIdx gen)) s₁ with hs₂def
    rw [hrun]
    dsimp only
    refine ⟨rfl, ?_, ?_, ?_, ?_, ?_, ?_, ?_, ?_, ?_, ?_, ?_, ?_, ?_, ?_, ?_, ?_⟩
    · intro w; rw [hpf.1, hdv w]
    · intro w; rw [hpf.2.1, hdi w]
    · rw [hpf.2.2.1, hdf.2.2.1]
    · rw [hpf.2.2.2.1, hdf.2.1]
    · rw [hpf.2.2.2.2.1, hdf.2.2.2.1]
    · rw [hpf.2.2.2.2.2.1, hdf.2.2.2.2.1]
    · rw [hpf.2.2.2.2.2.2.1, hdf.2.2.2.2.2.1]
    · intro w
      rw [hpf.2.2.2.2.2.2.2.1]
      exact hdp w
    · rw [hpf.2.2.2.2.2.2.2.1]
      exact drain_fold_pool (gIdx gen) (unreachSet s gen) s 0 hndU
    · intro w
      rw [(hpi.1) w, (hdm.1) w]
      constructor
      · rintro ⟨⟨h1, h2⟩, h3⟩
        exact ⟨h1, h2, fun _ => h3⟩
      · rintro ⟨h1, h2, h3⟩
        exact ⟨⟨h1, h2⟩, h3 hg⟩
    · exact hpi.2
    · intro j hji hjnx
      rw [hpo j hji (hjnx hg), hdo j hji]
    · intro _
      refine ⟨?_, hpnx.2⟩
      intro w
      rw [(hpnx.1) w]
      by_cases hw : w ∈ reachSet s gen
      · rw [if_pos hw, if_pos hw, (hdm.1) w]
      · rw [if_neg hw, if_neg hw, hdo (nextIdx gen) (Ne.symm hne)]
    · rw [if_pos rfl]
    · intro _
      rw [if_neg (Ne.symm hne), hpc, hdf.1]
      have hfe : List.filter (fun v => decide (v ∈ s₁.tracked (gIdx gen)))
            (reachSet s gen) =
          List.filter (fun v => decide (v ∈ s.tracked (gIdx gen) ∧ v ∉ unreachSet s gen))
            (reachSet s gen) := by
        apply List.filter_congr
        intro w hw
        simp only [decide_eq_decide]
        exact (hdm.1) w
      rw [hfe]
    · intro j hji hjnx
      rw [if_neg hji, hpf.2.2.2.2.2.2.2.2 j (hjnx hg), hdf.1]
  · -- the oldest generation: no promotion
    have hrun : do_collect_generation s gen =
        ((unreachSet s gen).length,
         { s₁ with counts := fun j => if j = gIdx gen then 0 else s₁.counts j }) := by
      unfold do_collect_generation
      rw [if_neg (by omega)]
      dsimp only
      rw [if_neg hg]
      have : ((unreachSet s gen).foldl (drainStep (gIdx gen)) (s, 0)).2 =
          (unreachSet s gen).length := by
        rw [hdf.2.2.2.2.2.2]
        omega
      rw [← hs₁def, this]
    rw [hrun]
    dsimp only
    refine ⟨rfl, ?_, ?_, ?_, ?_, ?_, ?_, ?_, ?_, ?_, ?_, ?_, ?_, ?_, ?_, ?_, ?_⟩
    · intro w; rw [hdv w]
    · intro w; rw [hdi w]
    · rw [hdf.2.2.1]
    · rw [hdf.2.1]
    · rw [hdf.2.2.2.1]
    · rw [hdf.2.2.2.2.1]
    · rw [hdf.2.2.2.2.2.1]
    · exact hdp
    · exact drain_fold_pool (gIdx gen) (unreachSet s gen) s 0 hndU
    · intro w
      rw [(hdm.1) w]
      constructor
      · rintro ⟨h1, h2⟩
        exact ⟨h1, h2, fun h => absurd h hg⟩
      · rintro ⟨h1, h2, _⟩
        exact ⟨h1, h2⟩
    · exact hdm.2
    · intro j hji _
      exact hdo j hji
    · intro h
      exact absurd h hg
    · rw [if_pos rfl]
    · intro h
      exact absurd h hg
    · intro j hji _
      rw [if_neg hji, hdf.1]

/-- Claim C8: while a collection is in progress (recursion counter
    positive), `do_collect_generation` returns 0 and leaves the state
    entirely unchanged, and a nested `collect_variables` returns 0 and
    leaves the tracked sets and generation counters unchanged (it does
    still clear the reuse pool on its way out). -/
theorem gc_reentry_noop :
    ∀ (s : GCState) (gen gen_limit : Fin 3), 0 < s.recur →
      do_collect_generation s gen = (0, s) ∧
      (collect_variables s gen_limit).1 = 0 ∧
      (∀ j, (collect_variables s gen_limit).2.tracked j = s.tracked j) ∧
      (∀ j, (collect_variables s gen_limit).2.counts j = s.counts j) := by
  intro s gen gen_limit hrec
  have hdc : ∀ g, do_collect_generation s g = (0, s) := by
    intro g
    unfold do_collect_generation
    rw [if_pos (by omega)]
  have hfold : ∀ (L : List (Fin 3)) (n : Nat),
      L.foldl (fun (acc : Nat × GCState) g =>
        let r := do_collect_generation acc.2 g
        (acc.1 + r.1, r.2)) (n, s) = (n, s) := by
    intro L
    induction L with
    | nil => intro n; rfl
    | cons g tl ih =>
      intro n
      simp only [List.foldl_cons]
      rw [hdc g]
      simpa using ih n
  have hcv : collect_variables s gen_limit = (0, { s with pool := [] }) := by
    unfold collect_variables
    dsimp only
    rw [hfold]
  rw [hcv]
  exact ⟨hdc gen, rfl, fun j => rfl, fun j => rfl⟩

/-- Claim C8 (witness): a collector with recursion counter 1 ignores both a
    single-generation collection request and a full collection request. -/
theorem gc_reentry_noop_witness :
    do_collect_generation { gcFresh with recur := 1 } 0 = (0, { gcFresh with recur := 1 }) ∧
    (collect_variables { gcFresh with recur := 1 } 2).1 = 0 :=
  have h := gc_reentry_noop { gcFresh with recur := 1 } 0 2 (by decide)
  ⟨h.1, h.2.1⟩

/-! ## Lemmas: tracking well-formedness is preserved -/

/-- A collection pass preserves tracking well-formedness, the recursion
    counter and the fresh-id counter. -/
theorem trackedWF_do_collect (s : GCState) (gen : Fin 3) (hrec : s.recur = 0)
    (hwf : TrackedWF s) :
    TrackedWF (do_collect_generation s gen).2 ∧
    (do_collect_generation s gen).2.recur = 0 ∧
    (do_collect_generation s gen).2.nextId = s.nextId := by
  obtain ⟨hnd, hdisj, hpnd, hpu, hb, hpb⟩ := hwf
  obtain ⟨hnv, hvals, hinit, hroots, hthres, hvars, hrec', hnid, hpool, hpoolL,
    htrI, hndI, htrO, htrNx, hcI, hcNx, hcO⟩ :=
    do_collect_spec s gen hrec (hnd _) (hnd _)
  have hUR := unreachSet_disjoint_reachSet s gen
  -- weak classification: post-pass tracked variables were tracked before
  have hclsW : ∀ (m : Fin 3) (w : Nat), w ∈ (do_collect_generation s gen).2.tracked m →
      w ∈ s.tracked m ∨ w ∈ s.tracked (gIdx gen) := by
    intro m w hw
    by_cases hmi : m = gIdx gen
    · subst hmi
      exact Or.inl ((htrI w).mp hw).1
    · by_cases hg : gen.val < 2
      · by_cases hmn : m = nextIdx gen
        · subst hmn
          have hmem := ((htrNx hg).1 w).mp hw
          by_cases hr : w ∈ reachSet s gen
          · rw [if_pos hr] at hmem
            exact Or.inr hmem.1
          · rw [if_neg hr] at hmem
            exact Or.inl hmem
        · rw [htrO m hmi (fun _ => hmn)] at hw
          exact Or.inl hw
      · rw [htrO m hmi (fun h => absurd h hg)] at hw
        exact Or.inl hw
  refine ⟨⟨?_, ?_, ?_, ?_, ?_, ?_⟩, hrec' ▸ hrec, hnid⟩
  · -- tracked sets stay duplicate-free
    intro j
    by_cases hji : j = gIdx gen
    · subst hji; exact hndI
    · by_cases hg : gen.val < 2
      · by_cases hjn : j = nextIdx gen
        · subst hjn; exact (htrNx hg).2
        · rw [htrO j hji (fun _ => hjn)]; exact hnd j
      · rw [htrO j hji (fun h => absurd h hg)]; exact hnd j
  · -- tracked sets stay pairwise disjoint
    intro j k hjk v hvj hvk
    by_cases hg : gen.val < 2
    · have hcls : ∀ (m : Fin 3) (w : Nat), w ∈ (do_collect_generation s gen).2.tracked m →
          (w ∈ s.tracked m ∧ (m = gIdx gen → w ∉ reachSet s gen)) ∨
          (m = nextIdx gen ∧ w ∈ reachSet s gen ∧ w ∈ s.tracked (gIdx gen)) := by
        intro m w hw
        by_cases hmi : m = gIdx gen
        · subst hmi
          obtain ⟨h1, _, h3⟩ := (htrI w).mp hw
          exact Or.inl ⟨h1, fun _ => h3 hg⟩
        · by_cases hmn : m = nextIdx gen
          · subst hmn
            have hmem := ((htrNx hg).1 w).mp hw
            by_cases hr : w ∈ reachSet s gen
            · rw [if_pos hr] at hmem
              exact Or.inr ⟨rfl, hr, hmem.1⟩
            · rw [if_neg hr] at hmem
              exact Or.inl ⟨hmem, fun hh => absurd hh hmi⟩
          · rw [htrO m hmi (fun _ => hmn)] at hw
            exact Or.inl ⟨hw, fun hh => absurd hh hmi⟩
      rcases hcls j v hvj with ⟨hj1, hj2⟩ | ⟨hj1, hj2, hj3⟩ <;>
        rcases hcls k v hvk with ⟨hk1, hk2⟩ | ⟨hk1, hk2, hk3⟩
      · exact hdisj j k hjk v hj1 hk1
      · by_cases hji : j = gIdx gen
        · exact (hj2 hji) hk2
        · exact hdisj j (gIdx gen) hji v hj1 hk3
      · by_cases hki : k = gIdx gen
        · exact (hk2 hki) hj2
        · exact hdisj k (gIdx gen) hki v hk1 hj3
      · rw [hj1, hk1] at hjk
        exact hjk rfl
    · have hcls : ∀ (m : Fin 3) (w : Nat), w ∈ (do_collect_generation s gen).2.tracked m →
          w ∈ s.tracked m := by
        intro m w hw
        by_cases hmi : m = gIdx gen
        · subst hmi; exact ((htrI w).mp hw).1
        · rw [htrO m hmi (fun h => absurd h hg)] at hw; exact hw
      exact hdisj j k hjk v (hcls j v hvj) (hcls k v hvk)
  · -- the pool stays duplicate-free
    rw [hpoolL]
    rw [List.nodup_append]
    refine ⟨hpnd, (unreachSet_nodup s gen).filter _, ?_⟩
    intro a ha ha'
    have := List.mem_filter.mp ha'
    exact (of_decide_eq_true this.2).2 ha
  · -- pooled cells stay untracked
    intro v hv j
    intro hvj
    rcases (hpool v).mp hv with hvp | ⟨hvU, hvT⟩
    · rcases hclsW j v hvj with h | h
      · exact hpu v hvp j h
      · exact hpu v hvp (gIdx gen) h
    · -- v was reclaimed: it cannot reappear in any tracked set
      by_cases hji : j = gIdx gen
      · subst hji
        exact ((htrI v).mp hvj).2.1 hvU
      · by_cases hg : gen.val < 2
        · by_cases hjn : j = nextIdx gen
          · subst hjn
            have hmem := ((htrNx hg).1 v).mp hvj
            by_cases hr : v ∈ reachSet s gen
            · exact hUR v hvU hr
            · rw [if_neg hr] at hmem
              exact hdisj (gIdx gen) (nextIdx gen) (gIdx_ne_nextIdx gen hg) v hvT hmem
          · rw [htrO j hji (fun _ => hjn)] at hvj
            exact hdisj (gIdx gen) j (fun h => hji h.symm) v hvT hvj
        · rw [htrO j hji (fun h => absurd h hg)] at hvj
          exact hdisj (gIdx gen) j (fun h => hji h.symm) v hvT hvj
  · -- tracked ids stay bounded
    intro j v hvj
    rw [hnid]
    rcases hclsW j v hvj with h | h
    · exact hb j v h
    · exact hb (gIdx gen) v h
  · -- pooled ids stay bounded
    intro v hv
    rw [hnid]
    rcases (hpool v).mp hv with hvp | ⟨_, hvT⟩
    · exact hpb v hvp
    · exact hb (gIdx gen) v hvT

/-- The automatic-collection loop of `create_variable` preserves tracking
    well-formedness and the recursion counter. -/
theorem trackedWF_createPass_fold (L : List (Fin 3)) :
    ∀ (acc : GCState × List (Fin 3)), acc.1.recur = 0 → TrackedWF acc.1 →
      (L.foldl createPass acc).1.recur = 0 ∧ TrackedWF (L.foldl createPass acc).1 := by
  induction L with
  | nil => intro acc h1 h2; exact ⟨h1, h2⟩
  | cons g tl ih =>
    intro acc h1 h2
    simp only [List.foldl_cons]
    unfold createPass
    by_cases hc : acc.1.counts (gIdx g) ≥ acc.1.thres (gIdx g)
    · rw [if_pos hc]
      have h := trackedWF_do_collect acc.1 g h1 h2
      exact ih ((do_collect_generation acc.1 g).2, acc.2 ++ [g]) h.2.1 h.1
    · rw [if_neg hc]
      exact ih acc h1 h2

/-- The tracking step preserves well-formedness for an untracked, unpooled,
    properly bounded cell. -/
theorem trackedWF_gcTrack (s : GCState) (hint : Fin 3) (v : Nat)
    (hwf : TrackedWF s) (hvt : ∀ j, v ∉ s.tracked j) (hvp : v ∉ s.pool)
    (hvb : v < s.nextId) : TrackedWF (gcTrack s hint v) := by
  obtain ⟨hnd, hdisj, hpnd, hpu, hb, hpb⟩ := hwf
  have htr : ∀ j, (gcTrack s hint v).tracked j =
      if j = gIdx hint then
        (if v ∈ s.tracked (gIdx hint) then s.tracked (gIdx hint)
         else s.tracked (gIdx hint) ++ [v])
      else s.tracked j := by
    intro j
    unfold gcTrack
    rfl
  have hmemtr : ∀ j w, w ∈ (gcTrack s hint v).tracked j ↔
      (w ∈ s.tracked j ∨ (j = gIdx hint ∧ w = v)) := by
    intro j w
    rw [htr j]
    by_cases hj : j = gIdx hint
    · subst hj
      rw [if_pos rfl, mem_insert_if]
      tauto
    · rw [if_neg hj]
      tauto
  refine ⟨?_, ?_, ?_, ?_, ?_, ?_⟩
  · intro j
    rw [htr j]
    by_cases hj : j = gIdx hint
    · subst hj
      rw [if_pos rfl]
      exact nodup_insert_if _ v (hnd _)
    · rw [if_neg hj]
      exact hnd j
  · intro j k hjk w hwj hwk
    rcases (hmemtr j w).mp hwj with h1 | ⟨hj, hwv⟩
    · rcases (hmemtr k w).mp hwk with h2 | ⟨hk, hwv⟩
      · exact hdisj j k hjk w h1 h2
      · exact hvt j (hwv ▸ h1)
    · rcases (hmemtr k w).mp hwk with h2 | ⟨hk, hwv2⟩
      · exact hvt k (hwv ▸ h2)
      · exact hjk (hj.trans hk.symm)
  · exact hpnd
  · intro w hw j hwj
    rcases (hmemtr j w).mp hwj with h1 | ⟨_, hwv⟩
    · exact hpu w hw j h1
    · exact hvp (hwv ▸ hw)
  · intro j w hwj
    rcases (hmemtr j w).mp hwj with h1 | ⟨_, hwv⟩
    · exact hb j w h1
    · exact hwv ▸ hvb
  · exact hpb

/-- `create_variable` preserves tracking well-formedness. -/
theorem trackedWF_create (s : GCState) (hint : Fin 3) (hrec : s.recur = 0)
    (hwf : TrackedWF s) : TrackedWF (create_variable s hint).st := by
  obtain ⟨hrec₀, hwf₀⟩ := trackedWF_createPass_fold (List.finRange 3) (s, []) hrec hwf
  unfold create_variable
  dsimp only
  obtain ⟨hnd₀, hdisj₀, hpnd₀, hpu₀, hb₀, hpb₀⟩ := hwf₀
  cases hp : ((List.finRange 3).foldl createPass (s, [])).1.pool with
  | cons v rest =>
    dsimp only
    apply trackedWF_gcTrack
    · refine ⟨hnd₀, hdisj₀, ?_, ?_, hb₀, ?_⟩
      · have := hpnd₀
        rw [hp] at this
        exact (List.nodup_cons.mp this).2
      · intro w hw j
        exact hpu₀ w (by rw [hp]; exact List.mem_cons_of_mem v hw) j
      · intro w hw
        exact hpb₀ w (by rw [hp]; exact List.mem_cons_of_mem v hw)
    · intro j
      exact hpu₀ v (by rw [hp]; exact List.mem_cons_self v rest) j
    · have := hpnd₀
      rw [hp] at this
      exact (List.nodup_cons.mp this).1
    · exact hpb₀ v (by rw [hp]; exact List.mem_cons_self v rest)
  | nil =>
    dsimp only
    apply trackedWF_gcTrack
    · refine ⟨hnd₀, hdisj₀, List.nodup_nil, ?_, ?_, ?_⟩
      · intro w hw
        exact absurd hw (List.not_mem_nil w)
      · intro j w hwj
        show w < _ + 1
        have := hb₀ j w hwj
        omega
      · intro w hw
        exact absurd hw (List.not_mem_nil w)
    · intro j hmem
      have := hb₀ j _ hmem
      omega
    · intro hmem
      exact absurd hmem (List.not_mem_nil _)
    · show _ < _ + 1
      omega

/-- Claim C10: tracking well-formedness — in particular, every variable
    being tracked by at most one generation — is preserved by a collection
    pass and by an allocation; and during promotion a reachable variable
    that was not a member of the collected generation's tracked set does
    not end up in the next generation (its tentative insertion is undone,
    which also removes a pre-existing entry), while the next generation's
    allocation counter is incremented exactly once per variable actually
    moved. -/
theorem tracked_at_most_one_generation :
    ∀ (s : GCState) (gen gen_hint : Fin 3), s.recur = 0 → TrackedWF s →
      TrackedWF (do_collect_generation s gen).2 ∧
      TrackedWF (create_variable s gen_hint).st ∧
      (gen.val < 2 →
        (∀ v ∈ reachSet s gen, v ∉ s.tracked (gIdx gen) →
           v ∉ (do_collect_generation s gen).2.tracked (nextIdx gen)) ∧
        (do_collect_generation s gen).2.counts (nextIdx gen) =
          s.counts (nextIdx gen) +
            ((reachSet s gen).filter
              (fun v => decide (v ∈ s.tracked (gIdx gen) ∧ v ∉ unreachSet s gen))).length) := by
  intro s gen hint hrec hwf
  refine ⟨(trackedWF_do_collect s gen hrec hwf).1, trackedWF_create s hint hrec hwf, ?_⟩
  intro hg
  obtain ⟨_, _, _, _, _, _, _, _, _, _, _, _, _, htrNx, _, hcNx, _⟩ :=
    do_collect_spec s gen hrec (hwf.1 _) (hwf.1 _)
  constructor
  · intro v hvR hvT hvmem
    have hmem := ((htrNx hg).1 v).mp hvmem
    rw [if_pos hvR] at hmem
    exact hvT hmem.1
  · exact hcNx hg

/-- Claim C10 (witness): the rooted single-cell state is well formed; a
    youngest-generation collection and an allocation both preserve that,
    and the collection promotes the rooted cell, bumping the middle
    generation's counter once. -/
theorem tracked_at_most_one_generation_witness :
    TrackedWF (do_collect_generation gcRooted1 0).2 ∧
    TrackedWF (create_variable gcRooted1 0).st ∧
    (do_collect_generation gcRooted1 0).2.counts (nextIdx 0) =
      gcRooted1.counts (nextIdx 0) +
        ((reachSet gcRooted1 0).filter
          (fun v => decide (v ∈ gcRooted1.tracked (gIdx 0) ∧
            v ∉ unreachSet gcRooted1 0))).length :=
  have h := tracked_at_most_one_generation gcRooted1 0 0 (by decide)
    (by unfold TrackedWF; decide)
  ⟨h.1, h.2.1, (h.2.2 (by decide)).2⟩

/-! ## Lemmas: the automatic-collection loop of create_variable -/

/-- The automatic-collection loop only appends triggered generations to the
    trigger record, in the order it examines them. -/
theorem createPass_fold_trig (L : List (Fin 3)) :
    ∀ acc : GCState × List (Fin 3), ∃ t,
      (L.foldl createPass acc).2 = acc.2 ++ t ∧ List.Sublist t L := by
  induction L with
  | nil =>
    intro acc
    exact ⟨[], (List.append_nil acc.2).symm, List.Sublist.refl []⟩
  | cons g tl ih =>
    intro acc
    rw [List.foldl_cons]
    by_cases hc : acc.1.counts (gIdx g) ≥ acc.1.thres (gIdx g)
    · have he : createPass acc g = ((do_collect_generation acc.1 g).2, acc.2 ++ [g]) := by
        unfold createPass
        rw [if_pos hc]
      rw [he]
      obtain ⟨t, ht, hs⟩ := ih ((do_collect_generation acc.1 g).2, acc.2 ++ [g])
      refine ⟨g :: t, ?_, hs.cons₂ g⟩
      rw [ht]
      simp
    · have he : createPass acc g = acc := by
        unfold createPass
        rw [if_neg hc]
      rw [he]
      obtain ⟨t, ht, hs⟩ := ih acc
      exact ⟨t, ht, hs.cons g⟩

/-- The trigger record of `create_variable` is exactly the trigger record
    of its collection loop (the pool-pop and tracking steps never touch
    it). -/
theorem create_variable_trig (s : GCState) (hint : Fin 3) :
    (create_variable s hint).trig = ((List.finRange 3).foldl createPass (s, [])).2 := by
  unfold create_variable
  dsimp only
  split <;> rfl

/-- The collection loop examines the generations youngest to oldest, and
    whether the youngest generation is collected is decided by its
    allocation counter against its threshold in the entry state. -/
theorem create_trig_zero (s : GCState) (hint : Fin 3) :
    List.Sublist (create_variable s hint).trig [0, 1, 2] ∧
    (0 ∈ (create_variable s hint).trig ↔ s.thres (gIdx 0) ≤ s.counts (gIdx 0)) := by
  have h3 : (List.finRange 3 : List (Fin 3)) = [0, 1, 2] := by decide
  have htr := create_variable_trig s hint
  rw [h3] at htr
  constructor
  · obtain ⟨t, ht, hs⟩ := createPass_fold_trig [0, 1, 2] (s, [])
    rw [htr, ht]
    simpa using hs
  · rw [htr, List.foldl_cons]
    by_cases hc : (s, ([] : List (Fin 3))).1.counts (gIdx 0) ≥
        (s, ([] : List (Fin 3))).1.thres (gIdx 0)
    · have he : createPass (s, []) 0 = ((do_collect_generation s 0).2, [] ++ [0]) := by
        unfold createPass
        rw [if_pos hc]
      rw [he]
      obtain ⟨t, ht2, hs2⟩ := createPass_fold_trig [1, 2] ((do_collect_generation s 0).2, [] ++ [0])
      rw [ht2]
      constructor
      · intro _
        exact hc
      · intro _
        exact List.mem_append_left _ (List.mem_append_right _ (List.mem_cons_self 0 []))
    · have he : createPass (s, []) 0 = (s, []) := by
        unfold createPass
        rw [if_neg hc]
      rw [he]
      obtain ⟨t, ht2, hs2⟩ := createPass_fold_trig [1, 2] (s, [])
      rw [ht2]
      constructor
      · intro hmem
        exfalso
        rcases List.mem_append.mp hmem with h | h
        · exact absurd h (List.not_mem_nil 0)
        · have h12 := hs2.subset h
          exact absurd h12 (by decide)
      · intro hle
        exact absurd hle hc

/-! ## Lemmas: straight-line allocation from a fresh collector -/

/-- A fresh collector satisfies the straight-line allocation invariant at
    zero allocations. -/
theorem freshInv_gcFresh : FreshInv 0 gcFresh := by
  unfold FreshInv gcFresh
  exact ⟨fun _ => rfl, fun _ => rfl, fun _ => rfl, rfl, rfl, rfl, rfl, rfl, rfl,
    rfl, rfl, rfl, rfl, rfl⟩

/-- One allocation below the youngest generation's threshold: nothing
    triggers, the fresh id is returned, and the invariant advances. -/
theorem create_freshInv (k : Nat) (s : GCState) (hk : k < 500) (h : FreshInv k s) :
    (create_variable s 0).trig = [] ∧
    (create_variable s 0).var = k + 1 ∧
    FreshInv (k + 1) (create_variable s 0).st := by
  obtain ⟨hvals, hinit, hroots, ht2, ht0, ht1, hc2, hc0, hc1, hth, hpool, hrec, hvars, hnext⟩ := h
  have hg0 : gIdx 0 = (2 : Fin 3) := rfl
  have hg1 : gIdx 1 = (1 : Fin 3) := rfl
  have hg2 : gIdx 2 = (0 : Fin 3) := rfl
  have hn0 : ¬ ((s, ([] : List (Fin 3))).1.counts (gIdx 0) ≥
      (s, ([] : List (Fin 3))).1.thres (gIdx 0)) := by
    show ¬ (s.thres (gIdx 0) ≤ s.counts (gIdx 0))
    rw [hg0, hc2, hth]
    show ¬ (500 ≤ k)
    omega
  have hn1 : ¬ ((s, ([] : List (Fin 3))).1.counts (gIdx 1) ≥
      (s, ([] : List (Fin 3))).1.thres (gIdx 1)) := by
    show ¬ (s.thres (gIdx 1) ≤ s.counts (gIdx 1))
    rw [hg1, hc1, hth]
    show ¬ (70 ≤ 0)
    omega
  have hn2 : ¬ ((s, ([] : List (Fin 3))).1.counts (gIdx 2) ≥
      (s, ([] : List (Fin 3))).1.thres (gIdx 2)) := by
    show ¬ (s.thres (gIdx 2) ≤ s.counts (gIdx 2))
    rw [hg2, hc0, hth]
    show ¬ (10 ≤ 0)
    omega
  have e0 : createPass (s, []) 0 = (s, []) := by
    unfold createPass
    rw [if_neg hn0]
  have e1 : createPass (s, []) 1 = (s, []) := by
    unfold createPass
    rw [if_neg hn1]
  have e2 : createPass (s, []) 2 = (s, []) := by
    unfold createPass
    rw [if_neg hn2]
  have hfold : (List.finRange 3).foldl createPass (s, []) = (s, []) := by
    have h3 : (List.finRange 3 : List (Fin 3)) = [0, 1, 2] := by decide
    rw [h3, List.foldl_cons, e0, List.foldl_cons, e1, List.foldl_cons, e2, List.foldl_nil]
  have hcv : create_variable s 0 =
      ⟨s.nextId,
       gcTrack { s with nextId := s.nextId + 1, vars := s.vars ++ [s.nextId] } 0 s.nextId,
       []⟩ := by
    unfold create_variable
    rw [hfold]
    dsimp only
    rw [hpool]
  have hLsucc : (List.range k).map (fun i => i + 1) ++ [k + 1] =
      (List.range (k + 1)).map (fun i => i + 1) := by
    simp [List.range_succ]
  have hmem : s.nextId ∉ s.tracked 2 := by
    rw [hnext, ht2]
    intro hm
    obtain ⟨i, hi, hik⟩ := List.mem_map.mp hm
    have := List.mem_range.mp hi
    omega
  refine ⟨by rw [hcv], ?_, ?_⟩
  · rw [hcv]
    exact hnext
  · rw [hcv]
    show FreshInv (k + 1)
      (gcTrack { s with nextId := s.nextId + 1, vars := s.vars ++ [s.nextId] } 0 s.nextId)
    have htr2 : (gcTrack { s with nextId := s.nextId + 1, vars := s.vars ++ [s.nextId] }
        0 s.nextId).tracked 2 = s.tracked 2 ++ [s.nextId] := by
      show (if (2 : Fin 3) = gIdx 0
            then (if s.nextId ∈ s.tracked (gIdx 0) then s.tracked (gIdx 0)
                  else s.tracked (gIdx 0) ++ [s.nextId])
            else s.tracked 2) = s.tracked 2 ++ [s.nextId]
      rw [if_pos (show (2 : Fin 3) = gIdx 0 from rfl), hg0, if_neg hmem]
    have htr0 : (gcTrack { s with nextId := s.nextId + 1, vars := s.vars ++ [s.nextId] }
        0 s.nextId).tracked 0 = s.tracked 0 := by
      show (if (0 : Fin 3) = gIdx 0
            then (if s.nextId ∈ s.tracked (gIdx 0) then s.tracked (gIdx 0)
                  else s.tracked (gIdx 0) ++ [s.nextId])
            else s.tracked 0) = s.tracked 0
      rw [if_neg (show ¬ ((0 : Fin 3) = gIdx 0) from by decide)]
    have htr1 : (gcTrack { s with nextId := s.nextId + 1, vars := s.vars ++ [s.nextId] }
        0 s.nextId).tracked 1 = s.tracked 1 := by
      show (if (1 : Fin 3) = gIdx 0
            then (if s.nextId ∈ s.tracked (gIdx 0) then s.tracked (gIdx 0)
                  else s.tracked (gIdx 0) ++ [s.nextId])
            else s.tracked 1) = s.tracked 1
      rw [if_neg (show ¬ ((1 : Fin 3) = gIdx 0) from by decide)]
    have hcn2 : (gcTrack { s with nextId := s.nextId + 1, vars := s.vars ++ [s.nextId] }
        0 s.nextId).counts 2 = s.counts 2 + 1 := by
      show (if (2 : Fin 3) = gIdx 0 then s.counts (gIdx 0) + 1 else s.counts 2) =
        s.counts 2 + 1
      rw [if_pos (show (2 : Fin 3) = gIdx 0 from rfl), hg0]
    have hcn0 : (gcTrack { s with nextId := s.nextId + 1, vars := s.vars ++ [s.nextId] }
        0 s.nextId).counts 0 = s.counts 0 := by
      show (if (0 : Fin 3) = gIdx 0 then s.counts (gIdx 0) + 1 else s.counts 0) = s.counts 0
      rw [if_neg (show ¬ ((0 : Fin 3) = gIdx 0) from by decide)]
    have hcn1 : (gcTrack { s with nextId := s.nextId + 1, vars := s.vars ++ [s.nextId] }
        0 s.nextId).counts 1 = s.counts 1 := by
      show (if (1 : Fin 3) = gIdx 0 then s.counts (gIdx 0) + 1 else s.counts 1) = s.counts 1
      rw [if_neg (show ¬ ((1 : Fin 3) = gIdx 0) from by decide)]
    refine ⟨fun w => hvals w, fun w => hinit w, fun w => hroots w, ?_, ?_, ?_, ?_, ?_, ?_,
      hth, hpool, hrec, ?_, ?_⟩
    · rw [htr2, ht2, hnext]
      exact hLsucc
    · rw [htr0]
      exact ht0
    · rw [htr1]
      exact ht1
    · rw [hcn2, hc2]
    · rw [hcn0]
      exact hc0
    · rw [hcn1]
      exact hc1
    · show s.vars ++ [s.nextId] = (List.range (k + 1)).map (fun i => i + 1)
      rw [hvars, hnext]
      exact hLsucc
    · show s.nextId + 1 = (k + 1) + 1
      rw [hnext]

/-- Straight-line allocation maintains the invariant through the first 500
    allocations. -/
theorem allocN_freshInv : ∀ k, k ≤ 500 → FreshInv k (allocN gcFresh 0 k) := by
  intro k
  induction k with
  | zero =>
    intro _
    exact freshInv_gcFresh
  | succ n ih =>
    intro hk
    exact (create_freshInv n (allocN gcFresh 0 n) (by omega) (ih (by omega))).2.2

/-- With every value uninitialized, reference discovery never leaves its
    start set. -/
theorem iterCl_vals_empty (s : GCState) (hvals : ∀ w, s.vals w = []) :
    ∀ (start : List Nat) (n : Nat), iterCl s.vals start n = start.dedup := by
  have hFM : ∀ l : List Nat, l.flatMap s.vals = [] := by
    intro l
    induction l with
    | nil => rfl
    | cons a tl ih =>
      rw [List.flatMap_cons, hvals a, List.nil_append]
      exact ih
  intro start n
  induction n with
  | zero => rfl
  | succ m ih =>
    show stepCl s.vals (iterCl s.vals start m) = start.dedup
    rw [ih]
    unfold stepCl
    rw [hFM, List.append_nil, List.dedup_idem]

/-- Collecting generation 0 after exactly 500 straight-line allocations:
    all 500 cells are unreachable and reclaimed into the pool, and all
    three counters read zero afterwards. -/
theorem collect_after_500 (s : GCState) (h : FreshInv 500 s) :
    (do_collect_generation s 0).1 = 500 ∧
    (do_collect_generation s 0).2.counts 2 = 0 ∧
    (do_collect_generation s 0).2.counts 1 = 0 ∧
    (do_collect_generation s 0).2.counts 0 = 0 ∧
    (do_collect_generation s 0).2.thres = defaultThres ∧
    (∃ v rest, (do_collect_generation s 0).2.pool = v :: rest) := by
  obtain ⟨hvals, hinit, hroots, ht2, ht0, ht1, hc2, hc0, hc1, hth, hpool, hrec, hvars, hnext⟩ := h
  have hg0 : gIdx 0 = (2 : Fin 3) := rfl
  have hnx0 : nextIdx 0 = (1 : Fin 3) := rfl
  have hndL : ((List.range 500).map (fun i => i + 1)).Nodup :=
    (List.nodup_range 500).map (fun a b hab => by omega)
  have hiter := iterCl_vals_empty s hvals
  have hFM : ∀ l : List Nat, l.flatMap s.vals = [] := by
    intro l
    induction l with
    | nil => rfl
    | cons a tl ih =>
      rw [List.flatMap_cons, hvals a, List.nil_append]
      exact ih
  have hclo : closureOf s 0 = (List.range 500).map (fun i => i + 1) := by
    unfold closureOf
    rw [hiter, hg0, ht2, List.dedup_eq_self.mpr hndL]
  have hkey : ∀ v ∈ (List.range 500).map (fun i => i + 1),
      gcRefOf s 0 v = useCountM1 s v := by
    intro v hv
    unfold gcRefOf useCountM1
    rw [hclo, hFM, hFM, ht0, ht1, ht2, hpool, hroots v]
    simp [hv]
  have heS : eSet s 0 = [] := by
    unfold eSet
    rw [hclo]
    apply List.filter_eq_nil_iff.mpr
    intro a ha
    simp only [decide_eq_true_eq]
    intro hne
    exact hne (hkey a ha)
  have hreach : reachSet s 0 = [] := by
    unfold reachSet
    rw [heS, hiter]
    rfl
  have hunreach : unreachSet s 0 = (List.range 500).map (fun i => i + 1) := by
    unfold unreachSet
    rw [hclo, hreach]
    apply List.filter_eq_self.mpr
    intro a _
    simp
  have hndi : (s.tracked (gIdx 0)).Nodup := by
    rw [hg0, ht2]
    exact hndL
  have hndnx : (s.tracked (nextIdx 0)).Nodup := by
    rw [hnx0, ht1]
    exact List.nodup_nil
  obtain ⟨hnv, hvals', hinit', hroots', hthres', hvars', hrec', hnid', hpoolm, hpooleq,
    htrI, htrInd, htrO, htrNx, hcI, hcNx, hcO⟩ := do_collect_spec s 0 hrec hndi hndnx
  refine ⟨?_, ?_, ?_, ?_, ?_, ?_⟩
  · rw [hnv, hunreach]
    simp
  · rw [← hg0]
    exact hcI
  · have hx := hcNx (by decide)
    rw [hnx0] at hx
    rw [hx, hc1, hreach]
    rfl
  · rw [hcO 0 (by decide) (fun _ => by decide), hc0]
  · rw [hthres']
    exact hth
  · have hfe : (unreachSet s 0).filter
        (fun v => decide (v ∈ s.tracked (gIdx 0) ∧ v ∉ s.pool)) =
        (List.range 500).map (fun i => i + 1) := by
      rw [hunreach]
      apply List.filter_eq_self.mpr
      intro a ha
      simp only [decide_eq_true_eq]
      rw [hg0, ht2, hpool]
      exact ⟨ha, List.not_mem_nil a⟩
    rw [hpooleq, hfe, hpool, List.nil_append]
    cases hLc : (List.range 500).map (fun i => i + 1) with
    | nil =>
      exfalso
      have hlen : ((List.range 500).map (fun i => i + 1)).length = 500 := by simp
      rw [hLc] at hlen
      simp at hlen
    | cons a t => exact ⟨a, t, rfl⟩

/-- Claim C7 (counterexample): a fresh collector's generation-0 threshold
    is 500, not 10, and the 11th straight-line allocation triggers no
    collection at all. -/
theorem threshold_newest_not_ten :
    get_threshold gcFresh 0 = 500 ∧
    ¬ get_threshold gcFresh 0 = 10 ∧
    (create_variable (allocN gcFresh 0 10) 0).trig = [] :=
  ⟨rfl, by decide,
   (create_freshInv 10 (allocN gcFresh 0 10) (by omega) (allocN_freshInv 10 (by omega))).1⟩

/-- The 501st straight-line allocation: the youngest generation's counter
    has reached its threshold, so exactly one generation-0 collection is
    triggered; it resets that counter, which then reads 1 once the new
    cell is tracked. -/
theorem create_after_500 (s : GCState) (h : FreshInv 500 s) :
    (create_variable s 0).trig = [0] ∧
    (do_collect_generation s 0).2.counts (gIdx 0) = 0 ∧
    (create_variable s 0).st.counts (gIdx 0) = 1 := by
  have hB := collect_after_500 s h
  obtain ⟨hvals, hinit, hroots, ht2, ht0, ht1, hc2, hc0, hc1, hth, hpool, hrec,
    hvars, hnext⟩ := h
  have hg0 : gIdx 0 = (2 : Fin 3) := rfl
  have hg1 : gIdx 1 = (1 : Fin 3) := rfl
  have hg2 : gIdx 2 = (0 : Fin 3) := rfl
  have hy0 : ((s, ([] : List (Fin 3))).1.counts (gIdx 0) ≥
      (s, ([] : List (Fin 3))).1.thres (gIdx 0)) := by
    show s.thres (gIdx 0) ≤ s.counts (gIdx 0)
    rw [hg0, hc2, hth]
    show 500 ≤ 500
    omega
  have e0 : createPass (s, []) 0 = ((do_collect_generation s 0).2, [] ++ [0]) := by
    unfold createPass
    rw [if_pos hy0]
  have hn1 : ¬ (((do_collect_generation s 0).2,
      ([] : List (Fin 3)) ++ [0]).1.counts (gIdx 1) ≥
      ((do_collect_generation s 0).2, ([] : List (Fin 3)) ++ [0]).1.thres (gIdx 1)) := by
    show ¬ ((do_collect_generation s 0).2.thres (gIdx 1) ≤
      (do_collect_generation s 0).2.counts (gIdx 1))
    rw [hg1, hB.2.2.1, hB.2.2.2.2.1]
    show ¬ (70 ≤ 0)
    omega
  have hn2 : ¬ (((do_collect_generation s 0).2,
      ([] : List (Fin 3)) ++ [0]).1.counts (gIdx 2) ≥
      ((do_collect_generation s 0).2, ([] : List (Fin 3)) ++ [0]).1.thres (gIdx 2)) := by
    show ¬ ((do_collect_generation s 0).2.thres (gIdx 2) ≤
      (do_collect_generation s 0).2.counts (gIdx 2))
    rw [hg2, hB.2.2.2.1, hB.2.2.2.2.1]
    show ¬ (10 ≤ 0)
    omega
  have e1 : createPass ((do_collect_generation s 0).2, [] ++ [0]) 1 =
      ((do_collect_generation s 0).2, [] ++ [0]) := by
    unfold createPass
    rw [if_neg hn1]
  have e2 : createPass ((do_collect_generation s 0).2, [] ++ [0]) 2 =
      ((do_collect_generation s 0).2, [] ++ [0]) := by
    unfold createPass
    rw [if_neg hn2]
  have hfold : (List.finRange 3).foldl createPass (s, []) =
      ((do_collect_generation s 0).2, [] ++ [0]) := by
    have h3 : (List.finRange 3 : List (Fin 3)) = [0, 1, 2] := by decide
    rw [h3, List.foldl_cons, e0, List.foldl_cons, e1, List.foldl_cons, e2, List.foldl_nil]
  obtain ⟨v, rest, hcons⟩ := hB.2.2.2.2.2
  have hcv : create_variable s 0 =
      ⟨v, gcTrack { (do_collect_generation s 0).2 with pool := rest } 0 v,
       [] ++ [0]⟩ := by
    unfold create_variable
    rw [hfold]
    dsimp only
    rw [hcons]
  have hgc : ∀ (t : GCState) (w : Nat),
      (gcTrack t 0 w).counts (gIdx 0) = t.counts (gIdx 0) + 1 := by
    intro t w
    show (if gIdx 0 = gIdx 0 then t.counts (gIdx 0) + 1 else t.counts (gIdx 0)) =
      t.counts (gIdx 0) + 1
    rw [if_pos rfl]
  refine ⟨?_, ?_, ?_⟩
  · rw [hcv]
    rfl
  · rw [hg0]
    exact hB.2.1
  · rw [hcv]
    show (gcTrack { (do_collect_generation s 0).2 with pool := rest } 0 v).counts
      (gIdx 0) = 1
    rw [hgc]
    show (do_collect_generation s 0).2.counts (gIdx 0) + 1 = 1
    rw [hg0, hB.2.1]

/-- Claim C7 (amended): in create_variable the generations are examined
    youngest to oldest, and the youngest is collected exactly when its
    allocation counter has reached its threshold; a fresh collector has
    threshold(0) = 500 (the thresholds 10, 70, 500 are stored oldest
    first); through the first 500 straight-line allocations nothing
    triggers, and the 501st allocation triggers exactly one generation-0
    collection, which resets that generation's counter to 0 (the counter
    then reads 1 once the new cell itself is tracked). -/
theorem generation_threshold_trigger :
    get_threshold gcFresh 0 = 500 ∧
    (∀ (s : GCState) (hint : Fin 3),
      List.Sublist (create_variable s hint).trig [0, 1, 2] ∧
      (0 ∈ (create_variable s hint).trig ↔ s.thres (gIdx 0) ≤ s.counts (gIdx 0))) ∧
    (∀ k, k < 500 → (create_variable (allocN gcFresh 0 k) 0).trig = []) ∧
    (create_variable (allocN gcFresh 0 500) 0).trig = [0] ∧
    (do_collect_generation (allocN gcFresh 0 500) 0).2.counts (gIdx 0) = 0 ∧
    (create_variable (allocN gcFresh 0 500) 0).st.counts (gIdx 0) = 1 := by
  have h5 := create_after_500 (allocN gcFresh 0 500) (allocN_freshInv 500 (by omega))
  exact ⟨rfl, fun s hint => create_trig_zero s hint,
    fun k hk => (create_freshInv k (allocN gcFresh 0 k) hk (allocN_freshInv k (by omega))).1,
    h5.1, h5.2.1, h5.2.2⟩

/-! ## Lemmas: reclamation of an externally-unreferenced closed set -/

/-- If the collected generation's tracked set avoids a set `S` that no
    value outside `S` references, every set built by the collection pass
    (closure, reachable set, unreachable set) avoids `S` too, and stays
    inside the allocated cells. -/
theorem closure_avoid (s : GCState) (gen : Fin 3) (S : List Nat)
    (htr : ∀ v ∈ s.tracked (gIdx gen), v ∈ s.vars ∧ v ∉ S)
    (hheap : ∀ u ∈ s.vars, ∀ w ∈ s.vals u, w ∈ s.vars)
    (hstep : ∀ u ∈ s.vars, u ∉ S → ∀ w ∈ s.vals u, w ∉ S) :
    (∀ a ∈ closureOf s gen, a ∈ s.vars ∧ a ∉ S) ∧
    (∀ a ∈ reachSet s gen, a ∈ s.vars ∧ a ∉ S) ∧
    (∀ a ∈ unreachSet s gen, a ∈ s.vars ∧ a ∉ S) := by
  have hstep' : ∀ u, u ∈ s.vars ∧ u ∉ S → ∀ w ∈ s.vals u, w ∈ s.vars ∧ w ∉ S :=
    fun u hu w hw => ⟨hheap u hu.1 w hw, hstep u hu.1 hu.2 w hw⟩
  have hcl : ∀ a ∈ closureOf s gen, a ∈ s.vars ∧ a ∉ S :=
    fun a ha => iterCl_inv s.vals (s.tracked (gIdx gen)) (fun b => b ∈ s.vars ∧ b ∉ S)
      htr hstep' s.vars.length a ha
  have hre : ∀ a ∈ reachSet s gen, a ∈ s.vars ∧ a ∉ S :=
    fun a ha => iterCl_inv s.vals (eSet s gen) (fun b => b ∈ s.vars ∧ b ∉ S)
      (fun b hb => hcl b (List.mem_of_mem_filter hb)) hstep' s.vars.length a ha
  exact ⟨hcl, hre, fun a ha => hcl a (List.mem_of_mem_filter ha)⟩

/-- A variable tracked by exactly one generation contributes exactly one
    tracked-set reference to its use count. -/
theorem trackedCount_one (s : GCState) (v : Nat) (i : Fin 3)
    (hin : v ∈ s.tracked i) (hout : ∀ j : Fin 3, j ≠ i → v ∉ s.tracked j) :
    (if v ∈ s.tracked 0 then 1 else 0) + (if v ∈ s.tracked 1 then 1 else 0) +
      (if v ∈ s.tracked 2 then 1 else 0) = 1 := by
  have hi : i = 0 ∨ i = 1 ∨ i = 2 := by
    rcases i with ⟨iv, hlt⟩
    interval_cases iv
    · exact Or.inl rfl
    · exact Or.inr (Or.inl rfl)
    · exact Or.inr (Or.inr rfl)
  rcases hi with rfl | rfl | rfl
  · rw [if_pos hin, if_neg (hout 1 (by decide)), if_neg (hout 2 (by decide))]
  · rw [if_neg (hout 0 (by decide)), if_pos hin, if_neg (hout 2 (by decide))]
  · rw [if_neg (hout 0 (by decide)), if_neg (hout 1 (by decide)), if_pos hin]

/-- Occurrences of `v` among the values of `L` all come from the members
    of `S` when every owner of a `v`-reference lies in `S`. -/
theorem count_flatMap_restrict (vals : Nat → List Nat) (v : Nat) (S : List Nat) :
    ∀ L : List Nat, (∀ u ∈ L, v ∈ vals u → u ∈ S) →
      (L.flatMap vals).count v =
        ((L.filter (fun u => decide (u ∈ S))).flatMap vals).count v := by
  intro L
  induction L with
  | nil =>
    intro _
    rfl
  | cons u tl ih =>
    intro h
    have htl : ∀ x ∈ tl, v ∈ vals x → x ∈ S := fun x hx => h x (List.mem_cons_of_mem u hx)
    by_cases hu : u ∈ S
    · rw [List.flatMap_cons u tl vals, List.count_append,
        List.filter_cons_of_pos (by simpa using hu), List.flatMap_cons u _ vals,
        List.count_append, ih htl]
    · have h0 : (vals u).count v = 0 := by
        rw [List.count_eq_zero]
        intro hv
        exact hu (h u (List.mem_cons_self u tl) hv)
      rw [List.flatMap_cons u tl vals, List.count_append,
        List.filter_cons_of_neg (by simpa using hu), ih htl, h0]
      omega

/-- Reference counting from any duplicate-free superset of `S` agrees with
    counting from `S` when only members of `S` hold the references. -/
theorem count_flatMap_sources (vals : Nat → List Nat) (v : Nat) (S L : List Nat)
    (hLnd : L.Nodup) (hSnd : S.Nodup) (hsub : ∀ a ∈ S, a ∈ L)
    (h : ∀ u ∈ L, v ∈ vals u → u ∈ S) :
    (L.flatMap vals).count v = (S.flatMap vals).count v := by
  rw [count_flatMap_restrict vals v S L h]
  have hperm : List.Perm (L.filter (fun u => decide (u ∈ S))) S := by
    rw [List.perm_ext_iff_of_nodup (hLnd.filter _) hSnd]
    intro a
    simp only [List.mem_filter, decide_eq_true_eq]
    exact ⟨fun ha => ha.2, fun ha => ⟨hsub a ha, ha⟩⟩
  exact (hperm.flatMap_right vals).count_eq v

/-- A collection pass over a generation that does not track any member of
    `S` leaves the cycle situation intact. -/
theorem cycle_pass_other (s : GCState) (g : Fin 3) (S : List Nat) (gen : Fin 3)
    (hcs : CycleState s g S) (hne : gIdx gen ≠ gIdx g) :
    CycleState (do_collect_generation s gen).2 g S := by
  obtain ⟨hrec, hvnd, htnd, htsub, hheap, hSv, hSt, hSo, hSr, hSp, hScl, hSonly⟩ := hcs
  have hav : ∀ v ∈ S, v ∉ s.tracked (gIdx gen) := hSo (gIdx gen) hne
  have hstep : ∀ u ∈ s.vars, u ∉ S → ∀ w ∈ s.vals u, w ∉ S :=
    fun u hu hus w hw hwS => hus (hSonly u hu w hwS hw)
  have htr : ∀ v ∈ s.tracked (gIdx gen), v ∈ s.vars ∧ v ∉ S :=
    fun v hv => ⟨htsub (gIdx gen) v hv, fun hvS => hav v hvS hv⟩
  obtain ⟨hcl, hre, hun⟩ := closure_avoid s gen S htr hheap hstep
  obtain ⟨hnv, hvals, hinit, hroots, hthres, hvars, hrec', hnid, hpoolm, hpooleq,
    htrI, htrInd, htrO, htrNx, hcI, hcNx, hcO⟩ :=
    do_collect_spec s gen hrec (htnd (gIdx gen)) (htnd (nextIdx gen))
  unfold CycleState
  refine ⟨?_, ?_, ?_, ?_, ?_, ?_, ?_, ?_, ?_, ?_, ?_, ?_⟩
  · rw [hrec']
    exact hrec
  · rw [hvars]
    exact hvnd
  · intro j
    by_cases hji : j = gIdx gen
    · rw [hji]
      exact htrInd
    · by_cases hg2 : gen.val < 2
      · by_cases hjn : j = nextIdx gen
        · rw [hjn]
          exact (htrNx hg2).2
        · rw [htrO j hji (fun _ => hjn)]
          exact htnd j
      · rw [htrO j hji (fun hx => absurd hx hg2)]
        exact htnd j
  · intro j w hw
    rw [hvars]
    by_cases hji : j = gIdx gen
    · rw [hji] at hw
      exact htsub (gIdx gen) w ((htrI w).mp hw).1
    · by_cases hg2 : gen.val < 2
      · by_cases hjn : j = nextIdx gen
        · rw [hjn] at hw
          have hiff := ((htrNx hg2).1 w).mp hw
          by_cases hwR : w ∈ reachSet s gen
          · rw [if_pos hwR] at hiff
            exact htsub (gIdx gen) w hiff.1
          · rw [if_neg hwR] at hiff
            exact htsub (nextIdx gen) w hiff
        · rw [htrO j hji (fun _ => hjn)] at hw
          exact htsub j w hw
      · rw [htrO j hji (fun hx => absurd hx hg2)] at hw
        exact htsub j w hw
  · intro u hu w hw
    rw [hvars] at hu ⊢
    rw [hvals u] at hw
    by_cases hU : u ∈ unreachSet s gen
    · rw [if_pos hU] at hw
      exact absurd hw (List.not_mem_nil w)
    · rw [if_neg hU] at hw
      exact hheap u hu w hw
  · intro v hv
    rw [hvars]
    exact hSv v hv
  · intro v hv
    have hvo : v ∈ s.tracked (gIdx g) := hSt v hv
    by_cases hg2 : gen.val < 2
    · by_cases hjn : gIdx g = nextIdx gen
      · rw [hjn]
        apply ((htrNx hg2).1 v).mpr
        have hvR : v ∉ reachSet s gen := fun hR => (hre v hR).2 hv
        rw [if_neg hvR, ← hjn]
        exact hvo
      · rw [htrO (gIdx g) (Ne.symm hne) (fun _ => hjn)]
        exact hvo
    · rw [htrO (gIdx g) (Ne.symm hne) (fun hx => absurd hx hg2)]
      exact hvo
  · intro j hj v hv
    by_cases hji : j = gIdx gen
    · rw [hji]
      intro hmem
      exact hav v hv ((htrI v).mp hmem).1
    · by_cases hg2 : gen.val < 2
      · by_cases hjn : j = nextIdx gen
        · rw [hjn]
          intro hmem
          have hiff := ((htrNx hg2).1 v).mp hmem
          by_cases hvR : v ∈ reachSet s gen
          · exact (hre v hvR).2 hv
          · rw [if_neg hvR] at hiff
            exact hSo (nextIdx gen) (hjn ▸ hj) v hv hiff
        · rw [htrO j hji (fun _ => hjn)]
          exact hSo j hj v hv
      · rw [htrO j hji (fun hx => absurd hx hg2)]
        exact hSo j hj v hv
  · intro v hv
    rw [hroots]
    exact hSr v hv
  · intro v hv hmem
    rcases (hpoolm v).mp hmem with hp | hp
    · exact hSp v hv hp
    · exact (hun v hp.1).2 hv
  · intro v hv w hw
    rw [hvals v] at hw
    have hvU : v ∉ unreachSet s gen := fun hU => (hun v hU).2 hv
    rw [if_neg hvU] at hw
    exact hScl v hv w hw
  · intro u hu v hv hvw
    rw [hvars] at hu
    rw [hvals u] at hvw
    by_cases hU : u ∈ unreachSet s gen
    · rw [if_pos hU] at hvw
      exact absurd hvw (List.not_mem_nil v)
    · rw [if_neg hU] at hvw
      exact hSonly u hu v hv hvw

/-- The collection pass over the generation tracking `S`: every member of
    `S` is unreachable and reclaimed, and `S` is counted in the returned
    total. -/
theorem cycle_pass_reclaim (s : GCState) (g : Fin 3) (S : List Nat)
    (hcs : CycleState s g S) (hSnd : S.Nodup) :
    S.length ≤ (do_collect_generation s g).1 ∧
    ReclaimedState (do_collect_generation s g).2 S := by
  obtain ⟨hrec, hvnd, htnd, htsub, hheap, hSv, hSt, hSo, hSr, hSp, hScl, hSonly⟩ := hcs
  have hclvars : ∀ a ∈ closureOf s g, a ∈ s.vars :=
    fun a ha => iterCl_inv s.vals (s.tracked (gIdx g)) (fun b => b ∈ s.vars)
      (fun b hb => htsub (gIdx g) b hb) (fun u hu w hw => hheap u hu w hw)
      s.vars.length a ha
  have hclnd : (closureOf s g).Nodup :=
    iterCl_nodup s.vals (s.tracked (gIdx g)) s.vars.length
  have hSsub : ∀ v ∈ S, v ∈ closureOf s g :=
    fun v hv => mem_iterCl_of_mem_start s.vals (s.tracked (gIdx g)) v (hSt v hv)
      s.vars.length
  have hkey : ∀ v ∈ S, gcRefOf s g v = useCountM1 s v := by
    intro v hv
    have hc1 : ((closureOf s g).flatMap s.vals).count v = (S.flatMap s.vals).count v :=
      count_flatMap_sources s.vals v S (closureOf s g) hclnd hSnd hSsub
        (fun u hu hvu => hSonly u (hclvars u hu) v hv hvu)
    have hc2 : (s.vars.flatMap s.vals).count v = (S.flatMap s.vals).count v :=
      count_flatMap_sources s.vals v S s.vars hvnd hSnd hSv
        (fun u hu hvu => hSonly u hu v hv hvu)
    have hti := trackedCount_one s v (gIdx g) (hSt v hv) (fun j hj => hSo j hj v hv)
    unfold gcRefOf useCountM1
    rw [hc1, hc2, hti, hSr v hv, if_neg (hSp v hv)]
    omega
  have hES : ∀ v ∈ S, v ∉ eSet s g := by
    intro v hv hmem
    have h2 := (List.mem_filter.mp hmem).2
    simp only [decide_eq_true_eq] at h2
    exact h2 (hkey v hv)
  have hreP : ∀ a ∈ reachSet s g, a ∈ s.vars ∧ a ∉ S := by
    intro a ha
    refine iterCl_inv s.vals (eSet s g) (fun b => b ∈ s.vars ∧ b ∉ S) ?_ ?_
      s.vars.length a ha
    · intro b hb
      exact ⟨hclvars b (List.mem_of_mem_filter hb), fun hbS => hES b hbS hb⟩
    · intro u hu w hw
      exact ⟨hheap u hu.1 w hw, fun hwS => hu.2 (hSonly u hu.1 w hwS hw)⟩
  have hSU : ∀ v ∈ S, v ∈ unreachSet s g := by
    intro v hv
    refine List.mem_filter.mpr ⟨hSsub v hv, ?_⟩
    simp only [decide_eq_true_eq]
    intro hR
    exact (hreP v hR).2 hv
  have hlen : S.length ≤ (unreachSet s g).length := (hSnd.subperm hSU).length_le
  obtain ⟨hnv, hvals, hinit, hroots, hthres, hvars, hrec', hnid, hpoolm, hpooleq,
    htrI, htrInd, htrO, htrNx, hcI, hcNx, hcO⟩ :=
    do_collect_spec s g hrec (htnd (gIdx g)) (htnd (nextIdx g))
  constructor
  · rw [hnv]
    exact hlen
  · unfold ReclaimedState
    refine ⟨?_, ?_, ?_, ?_, ?_, ?_, ?_, ?_, ?_⟩
    · rw [hrec']
      exact hrec
    · rw [hvars]
      exact hvnd
    · intro j
      by_cases hji : j = gIdx g
      · rw [hji]
        exact htrInd
      · by_cases hg2 : g.val < 2
        · by_cases hjn : j = nextIdx g
          · rw [hjn]
            exact (htrNx hg2).2
          · rw [htrO j hji (fun _ => hjn)]
            exact htnd j
        · rw [htrO j hji (fun hx => absurd hx hg2)]
          exact htnd j
    · intro j w hw
      rw [hvars]
      by_cases hji : j = gIdx g
      · rw [hji] at hw
        exact htsub (gIdx g) w ((htrI w).mp hw).1
      · by_cases hg2 : g.val < 2
        · by_cases hjn : j = nextIdx g
          · rw [hjn] at hw
            have hiff := ((htrNx hg2).1 w).mp hw
            by_cases hwR : w ∈ reachSet s g
            · rw [if_pos hwR] at hiff
              exact htsub (gIdx g) w hiff.1
            · rw [if_neg hwR] at hiff
              exact htsub (nextIdx g) w hiff
          · rw [htrO j hji (fun _ => hjn)] at hw
            exact htsub j w hw
        · rw [htrO j hji (fun hx => absurd hx hg2)] at hw
          exact htsub j w hw
    · intro u hu w hw
      rw [hvars] at hu ⊢
      rw [hvals u] at hw
      by_cases hU : u ∈ unreachSet s g
      · rw [if_pos hU] at hw
        exact absurd hw (List.not_mem_nil w)
      · rw [if_neg hU] at hw
        exact hheap u hu w hw
    · intro v hv
      rw [hinit v, if_pos (hSU v hv)]
    · intro v hv
      rw [hvals v, if_pos (hSU v hv)]
    · intro j v hv
      by_cases hji : j = gIdx g
      · rw [hji]
        intro hmem
        exact ((htrI v).mp hmem).2.1 (hSU v hv)
      · by_cases hg2 : g.val < 2
        · by_cases hjn : j = nextIdx g
          · rw [hjn]
            intro hmem
            have hiff := ((htrNx hg2).1 v).mp hmem
            by_cases hvR : v ∈ reachSet s g
            · exact (hreP v hvR).2 hv
            · rw [if_neg hvR] at hiff
              exact hSo (nextIdx g) (Ne.symm (gIdx_ne_nextIdx g hg2)) v hv hiff
          · rw [htrO j hji (fun _ => hjn)]
            exact hSo j hji v hv
        · rw [htrO j hji (fun hx => absurd hx hg2)]
          exact hSo j hji v hv
    · intro u hu v hv
      rw [hvars] at hu
      rw [hvals u]
      by_cases hU : u ∈ unreachSet s g
      · rw [if_pos hU]
        exact List.not_mem_nil v
      · rw [if_neg hU]
        intro hvin
        exact hU (hSU u (hSonly u hu v hv hvin))

/-- Once reclaimed, the cells of `S` stay uninitialized, value-free,
    untracked and unreferenced through any further collection pass. -/
theorem reclaimed_pass (s : GCState) (S : List Nat) (gen : Fin 3)
    (hrs : ReclaimedState s S) : ReclaimedState (do_collect_generation s gen).2 S := by
  obtain ⟨hrec, hvnd, htnd, htsub, hheap, hSi, hSv, hSt, hSref⟩ := hrs
  have htr : ∀ v ∈ s.tracked (gIdx gen), v ∈ s.vars ∧ v ∉ S :=
    fun v hv => ⟨htsub (gIdx gen) v hv, fun hvS => hSt (gIdx gen) v hvS hv⟩
  have hstep : ∀ u ∈ s.vars, u ∉ S → ∀ w ∈ s.vals u, w ∉ S :=
    fun u hu _ w hw hwS => hSref u hu w hwS hw
  obtain ⟨hcl, hre, hun⟩ := closure_avoid s gen S htr hheap hstep
  obtain ⟨hnv, hvals, hinit, hroots, hthres, hvars, hrec', hnid, hpoolm, hpooleq,
    htrI, htrInd, htrO, htrNx, hcI, hcNx, hcO⟩ :=
    do_collect_spec s gen hrec (htnd (gIdx gen)) (htnd (nextIdx gen))
  unfold ReclaimedState
  refine ⟨?_, ?_, ?_, ?_, ?_, ?_, ?_, ?_, ?_⟩
  · rw [hrec']
    exact hrec
  · rw [hvars]
    exact hvnd
  · intro j
    by_cases hji : j = gIdx gen
    · rw [hji]
      exact htrInd
    · by_cases hg2 : gen.val < 2
      · by_cases hjn : j = nextIdx gen
        · rw [hjn]
          exact (htrNx hg2).2
        · rw [htrO j hji (fun _ => hjn)]
          exact htnd j
      · rw [htrO j hji (fun hx => absurd hx hg2)]
        exact htnd j
  · intro j w hw
    rw [hvars]
    by_cases hji : j = gIdx gen
    · rw [hji] at hw
      exact htsub (gIdx gen) w ((htrI w).mp hw).1
    · by_cases hg2 : gen.val < 2
      · by_cases hjn : j = nextIdx gen
        · rw [hjn] at hw
          have hiff := ((htrNx hg2).1 w).mp hw
          by_cases hwR : w ∈ reachSet s gen
          · rw [if_pos hwR] at hiff
            exact htsub (gIdx gen) w hiff.1
          · rw [if_neg hwR] at hiff
            exact htsub (nextIdx gen) w hiff
        · rw [htrO j hji (fun _ => hjn)] at hw
          exact htsub j w hw
      · rw [htrO j hji (fun hx => absurd hx hg2)] at hw
        exact htsub j w hw
  · intro u hu w hw
    rw [hvars] at hu ⊢
    rw [hvals u] at hw
    by_cases hU : u ∈ unreachSet s gen
    · rw [if_pos hU] at hw
      exact absurd hw (List.not_mem_nil w)
    · rw [if_neg hU] at hw
      exact hheap u hu w hw
  · intro v hv
    rw [hinit v]
    have hvU : v ∉ unreachSet s gen := fun hU => (hun v hU).2 hv
    rw [if_neg hvU]
    exact hSi v hv
  · intro v hv
    rw [hvals v]
    have hvU : v ∉ unreachSet s gen := fun hU => (hun v hU).2 hv
    rw [if_neg hvU]
    exact hSv v hv
  · intro j v hv
    by_cases hji : j = gIdx gen
    · rw [hji]
      intro hmem
      exact hSt (gIdx gen) v hv ((htrI v).mp hmem).1
    · by_cases hg2 : gen.val < 2
      · by_cases hjn : j = nextIdx gen
        · rw [hjn]
          intro hmem
          have hiff := ((htrNx hg2).1 v).mp hmem
          by_cases hvR : v ∈ reachSet s gen
          · rw [if_pos hvR] at hiff
            exact hSt (gIdx gen) v hv hiff.1
          · rw [if_neg hvR] at hiff
            exact hSt (nextIdx gen) v hv hiff
        · rw [htrO j hji (fun _ => hjn)]
          exact hSt j v hv
      · rw [htrO j hji (fun hx => absurd hx hg2)]
        exact hSt j v hv
  · intro u hu v hv
    rw [hvars] at hu
    rw [hvals u]
    by_cases hU : u ∈ unreachSet s gen
    · rw [if_pos hU]
      exact List.not_mem_nil v
    · rw [if_neg hU]
      exact hSref u hu v hv

/-- `collect_variables(oldest)` is the three passes youngest to oldest,
    with the pool cleared at the end. -/
theorem collect_variables_run (s : GCState) :
    collect_variables s 2 =
      (0 + (do_collect_generation s 0).1 +
        (do_collect_generation (do_collect_generation s 0).2 1).1 +
        (do_collect_generation
          (do_collect_generation (do_collect_generation s 0).2 1).2 2).1,
       { (do_collect_generation
            (do_collect_generation (do_collect_generation s 0).2 1).2 2).2
          with pool := [] }) := by
  unfold collect_variables
  have hfilter : (List.finRange 3).filter (fun x => decide (x.val ≤ (2 : Fin 3).val)) =
      [0, 1, 2] := by decide
  rw [hfilter]
  rfl

/-- Claim C1: every duplicate-free set `S` of cells holding a closed
    reference structure with no references from outside the collector's
    tracked set of its generation (no external roots, no pool entries, no
    references from other live values) is fully reclaimed by one full
    collection pass up to the oldest generation: each cell is
    uninitialized, its value cleared, it is removed from every
    generation's tracked set, and `S` is counted in the returned total. -/
theorem gc_cycle_reclaimed (s : GCState) (g : Fin 3) (S : List Nat)
    (hcs : CycleState s g S) (hSnd : S.Nodup) :
    S.length ≤ (collect_variables s 2).1 ∧
    (∀ v ∈ S, (collect_variables s 2).2.init v = false) ∧
    (∀ v ∈ S, (collect_variables s 2).2.vals v = []) ∧
    (∀ j : Fin 3, ∀ v ∈ S, v ∉ (collect_variables s 2).2.tracked j) := by
  have hg : g = 0 ∨ g = 1 ∨ g = 2 := by
    rcases g with ⟨gv, hlt⟩
    interval_cases gv
    · exact Or.inl rfl
    · exact Or.inr (Or.inl rfl)
    · exact Or.inr (Or.inr rfl)
  rw [collect_variables_run s]
  rcases hg with rfl | rfl | rfl
  · have h1 := cycle_pass_reclaim s 0 S hcs hSnd
    have h2 := reclaimed_pass (do_collect_generation s 0).2 S 1 h1.2
    have h3 := reclaimed_pass
      (do_collect_generation (do_collect_generation s 0).2 1).2 S 2 h2
    obtain ⟨hrec3, hvnd3, htnd3, htsub3, hheap3, hSi3, hSv3, hSt3, hSref3⟩ := h3
    refine ⟨?_, fun v hv => hSi3 v hv, fun v hv => hSv3 v hv,
      fun j v hv => hSt3 j v hv⟩
    show S.length ≤ 0 + (do_collect_generation s 0).1 +
      (do_collect_generation (do_collect_generation s 0).2 1).1 +
      (do_collect_generation
        (do_collect_generation (do_collect_generation s 0).2 1).2 2).1
    have h11 := h1.1
    omega
  · have h0 := cycle_pass_other s 1 S 0 hcs (by decide)
    have h1 := cycle_pass_reclaim (do_collect_generation s 0).2 1 S h0 hSnd
    have h2 := reclaimed_pass
      (do_collect_generation (do_collect_generation s 0).2 1).2 S 2 h1.2
    obtain ⟨hrec2, hvnd2, htnd2, htsub2, hheap2, hSi2, hSv2, hSt2, hSref2⟩ := h2
    refine ⟨?_, fun v hv => hSi2 v hv, fun v hv => hSv2 v hv,
      fun j v hv => hSt2 j v hv⟩
    show S.length ≤ 0 + (do_collect_generation s 0).1 +
      (do_collect_generation (do_collect_generation s 0).2 1).1 +
      (do_collect_generation
        (do_collect_generation (do_collect_generation s 0).2 1).2 2).1
    have h11 := h1.1
    omega
  · have h0 := cycle_pass_other s 2 S 0 hcs (by decide)
    have h1 := cycle_pass_other (do_collect_generation s 0).2 2 S 1 h0 (by decide)
    have h2 := cycle_pass_reclaim
      (do_collect_generation (do_collect_generation s 0).2 1).2 2 S h1 hSnd
    obtain ⟨hrec2, hvnd2, htnd2, htsub2, hheap2, hSi2, hSv2, hSt2, hSref2⟩ := h2.2
    refine ⟨?_, fun v hv => hSi2 v hv, fun v hv => hSv2 v hv,
      fun j v hv => hSt2 j v hv⟩
    show S.length ≤ 0 + (do_collect_generation s 0).1 +
      (do_collect_generation (do_collect_generation s 0).2 1).1 +
      (do_collect_generation
        (do_collect_generation (do_collect_generation s 0).2 1).2 2).1
    have h21 := h2.1
    omega

/-- Claim C1 (witness): the two-cell cycle state satisfies the cycle
    situation for the youngest generation, and the full collection pass up
    to the oldest generation reclaims both cells. -/
theorem gc_cycle_reclaimed_witness :
    CycleState gcCycle2 0 [0, 1] ∧ ([0, 1] : List Nat).Nodup ∧
    (([0, 1] : List Nat).length ≤ (collect_variables gcCycle2 2).1 ∧
      (∀ v ∈ ([0, 1] : List Nat), (collect_variables gcCycle2 2).2.init v = false) ∧
      (∀ v ∈ ([0, 1] : List Nat), (collect_variables gcCycle2 2).2.vals v = []) ∧
      (∀ j : Fin 3, ∀ v ∈ ([0, 1] : List Nat),
        v ∉ (collect_variables gcCycle2 2).2.tracked j)) :=
  ⟨by unfold CycleState; decide, by decide,
   gc_cycle_reclaimed gcCycle2 0 [0, 1] (by unfold CycleState; decide) (by decide)⟩

end Asteria
